import Mathlib

/-!
# Verification of the `wcb_outflow` core against its specification

This file gives a shallow embedding of the core logic of the `wcb_outflow`
repository (files `wcb_outflow/outflow.py` and `wcb_outflow/calc.py`) and
proves or refutes the specified properties of that logic.

Modelling conventions:

* numpy arrays of `(lon, lat)` points become `List (ℝ × ℝ)`; float arithmetic
  is modelled by exact real arithmetic.
* iris cubes, as used by `calc.py`, are one-dimensional time series and are
  modelled by the structure `Cube` below, with `ℤ` time points and
  `Option ℚ` data values (`none` models NaN, the missing-data sentinel).
* Library capabilities that the core merely calls into (level-set contour
  extraction, median filtering, point-in-polygon tests, 2-D histograms) are
  taken as function parameters, exactly as the specification declares them
  external (§6).
* Functions that raise become `Except String` (or `Option`) valued.
* The `while` loop of `increase_circuit_resolution` is embedded as a fuel
  indexed iteration of a step function (`icrRun`); `none` means the fuel ran
  out before the loop condition became false.
-/

namespace WCB

/-! ## Geodesy primitives (`outflow.py`) -/

open scoped Classical in
/-- `np.deg2rad`: degrees to radians. -/
noncomputable def deg2rad (x : ℝ) : ℝ := x * (Real.pi / 180)

/-- `haversine(x1, x2)` (outflow.py:253-266): great circle distance in km
between two `(lon, lat)` points given in decimal degrees, Earth radius
6371 km. -/
noncomputable def haversine (x1 x2 : ℝ × ℝ) : ℝ :=
  let lon1 := deg2rad x1.1
  let lat1 := deg2rad x1.2
  let lon2 := deg2rad x2.1
  let lat2 := deg2rad x2.2
  let dlon := lon2 - lon1
  let dlat := lat2 - lat1
  let a := Real.sin (dlat / 2) ^ 2 +
    Real.cos lat1 * Real.cos lat2 * Real.sin (dlon / 2) ^ 2
  let c := 2 * Real.arcsin (Real.sqrt a)
  c * 6371

/-- `contour_length(points)` (outflow.py:187-200): total length of a contour
in km, wrapping from the last point back to the first. -/
noncomputable def contour_length (points : List (ℝ × ℝ)) : ℝ :=
  haversine (points.getLastD (0, 0)) (points.headD (0, 0)) +
    ((points.zip points.tail).map (fun pq => haversine pq.1 pq.2)).sum

/-- `is_closed_contour(contour_section, threshold=100)` (outflow.py:203-219):
the first and last points are closer than `threshold` km. -/
noncomputable def is_closed_contour (contour_section : List (ℝ × ℝ))
    (threshold : ℝ := 100) : Prop :=
  haversine (contour_section.headD (0, 0)) (contour_section.getLastD (0, 0)) <
    threshold

/-- `np.argmax` on a list of reals: index of the first occurrence of the
maximum (numpy capability used at outflow.py:178). Head wins ties. -/
noncomputable def np_argmax : List ℝ → ℕ
  | [] => 0
  | [_] => 0
  | x :: y :: xs =>
      let j := np_argmax (y :: xs)
      if x < (y :: xs).getD j 0 then j + 1 else 0

open scoped Classical in
/-- `get_longest_closed_contour(contours, threshold=100)` (outflow.py:161-184):
lengths of all candidates, zeroed for the candidates failing the closure
test, then the argmax; raises `ValueError` (here `.error`) when the selected
zeroed length is zero.  `np.argmax` itself raises on an empty list, which the
emptiness guard reproduces. -/
noncomputable def get_longest_closed_contour (contours : List (List (ℝ × ℝ)))
    (threshold : ℝ := 100) : Except String (List (ℝ × ℝ)) :=
  if contours.isEmpty then
    .error "attempt to get argmax of an empty sequence"
  else
    let lengths := contours.map fun x =>
      if is_closed_contour x threshold then contour_length x else 0
    let imax := np_argmax lengths
    let long_contour := contours.getD imax []
    if lengths.getD imax 0 = 0 then .error "No closed contours found"
    else .ok long_contour

/-! ## The contour resampler (`increase_circuit_resolution`, outflow.py:222-250)

The Python `while` loop carries the pair (current array `points`, index `n`).
`np.insert` returns a fresh array which is rebound to the local name
`points`; the caller's array is never written.  One loop iteration is
`icrStep`; `icrRun` iterates it with explicit fuel. -/

open scoped Classical in
/-- Loop state of `increase_circuit_resolution`: the local `points` binding
and the scan index `n`. -/
structure IcrState where
  points : List (ℝ × ℝ)
  n : ℕ

/-- One iteration of the loop body of `increase_circuit_resolution`
(outflow.py:227-248): look at the pair `(points[n], points[(n+1) % len])`;
if it is further apart than `resolution`, insert the linearly interpolated
point at index `(n+1) % len` (before that position, `np.insert` semantics);
always advance `n`. -/
noncomputable def icrStep (resolution : ℝ) (s : IcrState) : IcrState :=
  let np1 := (s.n + 1) % s.points.length
  let p := s.points.getD s.n (0, 0)
  let q := s.points.getD np1 (0, 0)
  let distance := haversine p q
  if resolution < distance then
    let dlon := q.1 - p.1
    let dlat := q.2 - p.2
    let new_lon := p.1 + (resolution / distance) * dlon
    let new_lat := p.2 + (resolution / distance) * dlat
    { points := s.points.insertIdx np1 (new_lon, new_lat), n := s.n + 1 }
  else
    { points := s.points, n := s.n + 1 }

/-- The `while n < len(points)` loop, with explicit fuel; `none` means the
fuel was exhausted while the loop condition still held. -/
noncomputable def icrRun (resolution : ℝ) : ℕ → IcrState → Option (List (ℝ × ℝ))
  | 0, _ => none
  | fuel + 1, s =>
      if s.n < s.points.length then icrRun resolution fuel (icrStep resolution s)
      else some s.points

/-- `increase_circuit_resolution(points, resolution)` (outflow.py:222-250),
started at `n = 0`. -/
noncomputable def increase_circuit_resolution (points : List (ℝ × ℝ))
    (resolution : ℝ) (fuel : ℕ) : Option (List (ℝ × ℝ)) :=
  icrRun resolution fuel { points := points, n := 0 }

/-- Caller frame for `increase_circuit_resolution`: `caller` is the array
object passed in (`closed_loop` at outflow.py:149), `points` the local
binding of the callee, `n` the scan index.  `np.insert` allocates a fresh
array and the assignment `points = np.insert(...)` rebinds only the local
name, so a step acts on `points`/`n` and leaves `caller` untouched. -/
structure IcrFrame where
  caller : List (ℝ × ℝ)
  points : List (ℝ × ℝ)
  n : ℕ

/-- One loop iteration viewed with the caller's binding in the frame. -/
noncomputable def icrFrameStep (resolution : ℝ) (f : IcrFrame) : IcrFrame :=
  let s := icrStep resolution { points := f.points, n := f.n }
  { caller := f.caller, points := s.points, n := s.n }

/-- The full call with the caller's binding tracked: returns the pair
(caller's array after the call, returned array). -/
noncomputable def icrFrameRun (resolution : ℝ) :
    ℕ → IcrFrame → Option (List (ℝ × ℝ) × List (ℝ × ℝ))
  | 0, _ => none
  | fuel + 1, f =>
      if f.n < f.points.length then
        icrFrameRun resolution fuel (icrFrameStep resolution f)
      else some (f.caller, f.points)

/-- `increase_circuit_resolution` as invoked by a caller holding `points`:
the frame starts with `caller` and the local `points` referring to the same
array value. -/
noncomputable def increase_circuit_resolution_call (points : List (ℝ × ℝ))
    (resolution : ℝ) (fuel : ℕ) : Option (List (ℝ × ℝ) × List (ℝ × ℝ)) :=
  icrFrameRun resolution fuel { caller := points, points := points, n := 0 }

/-! ## The outflow-region extractor (`get_points`, outflow.py:142-158)

The criteria-mask construction and the 0.5 level-set extraction
(`iplt.contour`) are external capabilities; `get_points` is modelled from
the point where the list of candidate contours `cs.allsegs[0]` exists.  The
grid is the flattened list of `(lon, lat, z)` triples and `contains` is the
`matplotlib.path.Path.contains_points` capability. -/

/-- `get_points` (outflow.py:142-158).  Selects the longest closed contour;
the call `increase_circuit_resolution(closed_loop, resolution)` at
outflow.py:149 builds a fresh refined array (`np.insert` does not mutate its
argument) and its return value is discarded, so the unrefined `closed_loop`
is what is returned and what the interior points are classified against. -/
noncomputable def get_points (contours : List (List (ℝ × ℝ)))
    (grid : List (ℝ × ℝ × ℝ))
    (contains : List (ℝ × ℝ) → ℝ × ℝ → Bool)
    (resolution : ℝ) (fuel : ℕ) :
    Except String (List (ℝ × ℝ) × List (ℝ × ℝ × ℝ)) :=
  match get_longest_closed_contour contours with
  | .error e => .error e
  | .ok closed_loop =>
      let _discarded := increase_circuit_resolution closed_loop resolution fuel
      .ok (closed_loop, grid.filter fun p => contains closed_loop (p.1, p.2.1))

/-! ## The per-level driver (`outflow_th`, outflow.py:17-120)

Data loading, smoothing and plotting are external; the per-level extraction
(the `try` block around `get_points`) is abstracted as `extract`, which
yields `none` when `get_points` raises `ValueError`.  The loop accumulates
`outflow_boundaries` / `outflow_volume`, which are unbound Python locals
until the first successful level (modelled by an `Option` accumulator).  If
`save` is requested while they are still unbound, `np.save` raises
`NameError`. -/

/-- Result of `outflow_th`: the accumulated boundary and volume arrays (or
`none` when no level succeeded), the list of levels for which the
"No closed contours found at this level" notice was printed, and the arrays
written by `np.save` (or `none` when `save` was false). -/
structure OutflowThResult where
  accumulated : Option (List (ℝ × ℝ × ℝ) × List (ℝ × ℝ × ℝ × ℝ))
  notices : List ℝ
  saved : Option (List (ℝ × ℝ × ℝ) × List (ℝ × ℝ × ℝ × ℝ))

/-- One iteration of the `for theta_level in theta_levels` loop
(outflow.py:67-112): on success, tag the boundary with the level as a third
column and the interior points as a fourth column, then either start or
extend the accumulator; on `ValueError`, print the notice and leave the
accumulator unchanged. -/
def outflow_thStep
    (extract : ℝ → Option (List (ℝ × ℝ) × List (ℝ × ℝ × ℝ)))
    (acc : Option (List (ℝ × ℝ × ℝ) × List (ℝ × ℝ × ℝ × ℝ)) × List ℝ)
    (theta_level : ℝ) :
    Option (List (ℝ × ℝ × ℝ) × List (ℝ × ℝ × ℝ × ℝ)) × List ℝ :=
  match extract theta_level with
  | some (boundary, points) =>
      let boundary3d := boundary.map fun p => (p.1, p.2, theta_level)
      let points3d := points.map fun p => (p.1, p.2.1, p.2.2, theta_level)
      match acc.1 with
      | none => (some (boundary3d, points3d), acc.2)
      | some (bs, vs) => (some (bs ++ boundary3d, vs ++ points3d), acc.2)
  | none => (acc.1, acc.2 ++ [theta_level])

/-- `outflow_th` (outflow.py:17-120), reduced to its accumulation and
saving behaviour. -/
def outflow_th (theta_levels : List ℝ)
    (extract : ℝ → Option (List (ℝ × ℝ) × List (ℝ × ℝ × ℝ)))
    (save : Bool) : Except String OutflowThResult :=
  let st := theta_levels.foldl (outflow_thStep extract) (none, [])
  if save then
    match st.1 with
    | none => .error "NameError: name outflow_boundaries is not defined"
    | some arrays =>
        .ok { accumulated := some arrays, notices := st.2, saved := some arrays }
  else
    .ok { accumulated := st.1, notices := st.2, saved := none }

/-! ## The inflow-contour builder (`contour_around_points` and `_bin_edges`,
outflow.py:269-291)

`np.histogram2d`, the median filter and the 0.5 level-set extraction are
external capabilities; the bin edges are computed by `_bin_edges`.  Grid
coordinates are exact rationals here since `_bin_edges` is pure rational
arithmetic. -/

/-- `np.diff`: consecutive differences. -/
def np_diff (x : List ℚ) : List ℚ := (x.zip x.tail).map fun p => p.2 - p.1

/-- `.mean()` of a list (division by zero yields `0` for the empty list;
the claims only use nonempty grids). -/
def np_mean (l : List ℚ) : ℚ := l.sum / l.length

/-- `_bin_edges(x)` (outflow.py:285-291): `xed[:-1] = x - dx`,
`xed[-1] = x[-1] + dx` with `dx = np.diff(x).mean()`. -/
def _bin_edges (x : List ℚ) : List ℚ :=
  let dx := np_mean (np_diff x)
  (x.map fun xi => xi - dx) ++ [x.getLastD 0 + dx]

/-- Modelled from the spec (§4.5 and claim C8): bin edges as the grid
coordinates' midpoints extended by half a grid-cell at each end, i.e.
`edge_i = x_i - dx/2` and a final edge `x[-1] + dx/2`.  This definition
follows the specification's words, for comparison with `_bin_edges` above,
which is translated from the source. -/
def bin_edges_spec (x : List ℚ) : List ℚ :=
  let dx := np_mean (np_diff x)
  (x.map fun xi => xi - dx / 2) ++ [x.getLastD 0 + dx / 2]

/-- `contour_around_points` (outflow.py:269-282): histogram the scattered
points on `_bin_edges`-derived bins, smooth, contour at 0.5 and select the
longest closed contour.  The histogram, filter and contour extraction are
external capabilities passed as functions. -/
noncomputable def contour_around_points (xpoints ypoints : List ℝ)
    (x y : List ℚ)
    (histogram2d : List ℝ → List ℝ → List ℚ × List ℚ → List (List ℝ))
    (medfilt : List (List ℝ) → List (List ℝ))
    (contour05 : List (List ℝ) → List (List (ℝ × ℝ))) :
    Except String (List (ℝ × ℝ)) :=
  let bins := (_bin_edges x, _bin_edges y)
  let histogram := medfilt (histogram2d xpoints ypoints bins)
  get_longest_closed_contour (contour05 histogram)

/-! ## `calc.py`: cubes, fractional change, time alignment, dispatch

A cube is a named, unit-carrying time series.  `none` in `data` models a
NaN entry. -/

/-- A one-dimensional iris cube as used by `calc.py`: a named time series.
`times` and `data` are parallel lists; a `none` datum is NaN. -/
structure Cube where
  name : String
  units : String
  times : List ℤ
  data : List (Option ℚ)
deriving DecidableEq, Repr

/-- Subtraction on possibly-NaN values: NaN propagates. -/
def vsub : Option ℚ → Option ℚ → Option ℚ
  | some a, some b => some (a - b)
  | _, _ => none

/-- Division on possibly-NaN values: NaN propagates, and division by zero
produces a non-finite value (inf or nan in numpy), modelled as `none`. -/
def vdiv : Option ℚ → Option ℚ → Option ℚ
  | some a, some b => if b = 0 then none else some (a / b)
  | _, _ => none

/-- `diff(cube_theta, idx_0=None)` (calc.py:9-23): fractional change
relative to a reference value.  With no index, the reference is the first
non-NaN value when one exists (`cube_theta[~np.isnan(...)][0]`), else the
literal first value `cube_theta[0]`; with an index `k` it is
`cube_theta[k]`.  The result is `(cube_theta - cube_initial) /
cube_initial` elementwise.  (iris renames arithmetic results; the claims do
not concern the result's metadata, which is left unchanged here.) -/
def diff (cube_theta : Cube) (idx_0 : Option ℕ := none) : Cube :=
  let valid := cube_theta.data.filter fun v => v.isSome
  let cube_initial : Option ℚ :=
    match idx_0 with
    | none => if valid.isEmpty then cube_theta.data.getD 0 none
              else valid.getD 0 none
    | some k => cube_theta.data.getD k none
  { cube_theta with
    data := cube_theta.data.map fun v => vdiv (vsub v cube_initial) cube_initial }

/-- `cube.extract(iris.Constraint(time=lambda cell: cell in dates))`:
keep exactly the time points (with their data) whose cell is in `dates`.
iris returns `None` when nothing matches, modelled by `none`. -/
def extract_time (cube : Cube) (dates : List ℤ) : Option Cube :=
  let pairs := (cube.times.zip cube.data).filter fun td => decide (td.1 ∈ dates)
  if pairs.isEmpty then none
  else some { cube with times := pairs.map Prod.fst, data := pairs.map Prod.snd }

/-- `equate_times(cube, reference_cube)` (calc.py:88-102).  Restrict `cube`
to the reference's dates, restrict `reference_cube` to the restricted
`cube`'s dates, then build `new_cube` as a copy of the restricted reference
whose name, units and data are overwritten with the restricted `cube`'s.
When an extraction matches nothing, iris returns `None` and the following
`.coord('time')` raises `AttributeError`. -/
def equate_times (cube reference_cube : Cube) : Except String (Cube × Cube) :=
  match extract_time cube reference_cube.times with
  | none => .error "AttributeError: NoneType has no attribute coord"
  | some cube1 =>
      match extract_time reference_cube cube1.times with
      | none => .error "AttributeError: NoneType has no attribute coord"
      | some reference2 =>
          .ok ({ reference2 with
            name := cube1.name, units := cube1.units, data := cube1.data },
            reference2)

/-- `cubes.extract_strict(name)`: the unique cube with that name, raising
`ConstraintMismatchError` when there is none or more than one. -/
def extract_strict (cubes : List Cube) (name : String) : Except String Cube :=
  match cubes.filter fun c => c.name == name with
  | [c] => .ok c
  | _ => .error "ConstraintMismatchError"

/-- iris cube division, elementwise on the data; iris gives the result a
fresh identity, modelled by the name "unknown". -/
def cubeDiv (a b : Cube) : Cube :=
  { name := "unknown", units := "unknown", times := a.times,
    data := (a.data.zip b.data).map fun p => vdiv p.1 p.2 }

/-- `density(cubes)` (calc.py:54-58): `mass / area`. -/
def density (cubes : List Cube) : Except String Cube := do
  let mass ← extract_strict cubes "mass"
  let area ← extract_strict cubes "area"
  return cubeDiv mass area

/-- `vorticity(cubes, circulation_name="")` (calc.py:61-67):
`circulation / area` after `equate_times(area, circulation)`. -/
def vorticity (cubes : List Cube) (circulation_name : String := "") :
    Except String Cube := do
  let area ← extract_strict cubes "area"
  let circulation ← extract_strict cubes (circulation_name ++ "circulation")
  match equate_times area circulation with
  | .error e => .error e
  | .ok (area2, circulation2) => return cubeDiv circulation2 area2

/-- `potential_vorticity(cubes, circulation_name="")` (calc.py:70-75):
`circulation / mass` after `equate_times(mass, circulation)`. -/
def potential_vorticity (cubes : List Cube) (circulation_name : String := "") :
    Except String Cube := do
  let mass ← extract_strict cubes "mass"
  let circulation ← extract_strict cubes (circulation_name ++ "circulation")
  match equate_times mass circulation with
  | .error e => .error e
  | .ok (mass2, circulation2) => return cubeDiv circulation2 mass2

/-- `ratio(cubes)` (calc.py:78-85): `diff(mass) / diff(area)`. -/
def ratio (cubes : List Cube) : Except String Cube := do
  let mass ← extract_strict cubes "mass"
  let area ← extract_strict cubes "area"
  let alpha := diff mass
  let epsilon := diff area
  return cubeDiv alpha epsilon

/-- Python's substring test `needle in haystack`. -/
def str_contains (haystack needle : String) : Bool :=
  haystack.data.tails.any fun t => needle.data.isPrefixOf t

/-- Tagging a boundary with its theta level as a third column
(outflow.py:95-97). -/
def tagBoundary (theta_level : ℝ) (b : List (ℝ × ℝ)) : List (ℝ × ℝ × ℝ) :=
  b.map fun q => (q.1, q.2, theta_level)

/-- Tagging interior points with their theta level as a fourth column
(outflow.py:99-101). -/
def tagVolume (theta_level : ℝ) (p : List (ℝ × ℝ × ℝ)) :
    List (ℝ × ℝ × ℝ × ℝ) :=
  p.map fun q => (q.1, q.2.1, q.2.2, theta_level)

/-- The in-order concatenation of the theta-tagged boundaries of exactly the
successful levels (the shape claim C4 ascribes to the accumulated
`outflow_boundaries`). -/
def outflowBoundariesSpec (theta_levels : List ℝ)
    (extract : ℝ → Option (List (ℝ × ℝ) × List (ℝ × ℝ × ℝ))) :
    List (ℝ × ℝ × ℝ) :=
  theta_levels.flatMap fun theta_level =>
    match extract theta_level with
    | some bp => tagBoundary theta_level bp.1
    | none => []

/-- The in-order concatenation of the theta-tagged interior points of
exactly the successful levels. -/
def outflowVolumeSpec (theta_levels : List ℝ)
    (extract : ℝ → Option (List (ℝ × ℝ) × List (ℝ × ℝ × ℝ))) :
    List (ℝ × ℝ × ℝ × ℝ) :=
  theta_levels.flatMap fun theta_level =>
    match extract theta_level with
    | some bp => tagVolume theta_level bp.2
    | none => []

/-- `get_cube_by_name(cubes, name)` (calc.py:39-51): dispatch by pattern,
in source order: literal `"density"`, then any name containing
`"vorticity"` (with its last 9 characters stripped to form the circulation
name), then any name containing `"PV"` (last 2 characters stripped), then
the literal `"mass area anomaly ratio"`, and only otherwise a strict
extraction of the exact name. -/
def get_cube_by_name (cubes : List Cube) (name : String) : Except String Cube :=
  if name == "density" then density cubes
  else if str_contains name "vorticity" then
    vorticity cubes (name.dropRight 9)
  else if str_contains name "PV" then
    potential_vorticity cubes (name.dropRight 2)
  else if name == "mass area anomaly ratio" then ratio cubes
  else extract_strict cubes name

/-! ## Auxiliary functions for the analysis of the resampler

`fdiag s` is the haversine distance from the origin to the point
`(90 s, 90 s)` on the diagonal chord used in the non-termination analysis,
and `gdiag` is its angular part. -/

/-- Angular part of the distance from `(0,0)` along the lon = lat diagonal:
`gdiag u = arcsin (sin u / √2)`. -/
noncomputable def gdiag (u : ℝ) : ℝ := Real.arcsin (Real.sin u / Real.sqrt 2)

/-- Haversine distance from `(0, 0)` to `(90 s, 90 s)`, as a function of
the chord parameter `s`. -/
noncomputable def fdiag (s : ℝ) : ℝ := 2 * gdiag (s * (Real.pi / 2)) * 6371

/-- Invariant of the stuck wrap-edge subloop of
`increase_circuit_resolution` on the contour `[(90, 90), (0, 0)]`: the scan
sits on the last point `(0, 0)`, the head is a point `(90 s, 90 s)` of the
diagonal chord, and the head is still farther than `resolution` away. -/
def IcrDiagStuck (resolution : ℝ) (s : IcrState) : Prop :=
  ∃ sc : ℝ, 0 < sc ∧ sc ≤ 1 ∧
    s.points.headD (0, 0) = (90 * sc, 90 * sc) ∧
    s.points.getLastD (0, 0) = (0, 0) ∧
    2 ≤ s.points.length ∧
    s.n = s.points.length - 1 ∧
    resolution < fdiag sc


/-! ## Helper lemmas -/

theorem aux_exists_mem_zip {α β : Type} {ts : List α} {ds : List β}
    (h : ts.length = ds.length) {t : α} (ht : t ∈ ts) :
    ∃ d, (t, d) ∈ ts.zip ds := by
  induction ts generalizing ds with
  | nil => cases ht
  | cons a ts ih =>
      cases ds with
      | nil => simp at h
      | cons d ds =>
          rcases List.mem_cons.mp ht with rfl | ht
          · exact ⟨d, List.mem_cons_self _ _⟩
          · obtain ⟨d', hd'⟩ := ih (by simpa using h) ht
            exact ⟨d', List.mem_cons_of_mem _ hd'⟩

theorem aux_getD_map {α β : Type} (f : α → β) (l : List α) (k : ℕ)
    (hk : k < l.length) (d : α) (d' : β) :
    (l.map f).getD k d' = f (l.getD k d) := by
  induction l generalizing k with
  | nil => simp at hk
  | cons a l ih =>
      cases k with
      | zero => simp
      | succ k => simpa using ih k (by simpa using hk)

theorem aux_getD_ne_default {α : Type} {l : List α} {k : ℕ} {d : α}
    (h : l.getD k d ≠ d) : k < l.length := by
  by_contra hk
  exact h (List.getD_eq_default _ _ (le_of_not_lt hk))

/-- Membership in the times of an `extract_time` restriction. -/
theorem aux_mem_extract_time {c c1 : Cube} {dates : List ℤ}
    (hlen : c.times.length = c.data.length)
    (h : extract_time c dates = some c1) {t : ℤ} :
    t ∈ c1.times ↔ t ∈ c.times ∧ t ∈ dates := by
  have hc1 : c1.times =
      (((c.times.zip c.data).filter fun td => decide (td.1 ∈ dates)).map
        Prod.fst) := by
    unfold extract_time at h
    by_cases hp : ((c.times.zip c.data).filter fun td =>
        decide (td.1 ∈ dates)).isEmpty
    · simp [hp] at h
    · simp [hp] at h
      rw [← h]
  constructor
  · intro ht
    rw [hc1] at ht
    obtain ⟨td, htd, rfl⟩ := List.mem_map.mp ht
    have h2 := List.mem_filter.mp htd
    have h3 := List.of_mem_zip h2.1
    exact ⟨h3.1, by simpa using h2.2⟩
  · rintro ⟨ht, hd⟩
    rw [hc1]
    obtain ⟨d, hmem⟩ := aux_exists_mem_zip hlen ht
    refine List.mem_map.mpr ⟨(t, d), List.mem_filter.mpr ⟨hmem, by simpa using hd⟩, rfl⟩

theorem aux_extract_time_times_le {c c1 : Cube} {dates : List ℤ}
    (h : extract_time c dates = some c1) :
    c1.times.length = c1.data.length := by
  unfold extract_time at h
  by_cases hp : ((c.times.zip c.data).filter fun td =>
      decide (td.1 ∈ dates)).isEmpty
  · simp [hp] at h
  · simp [hp] at h
    rw [← h]
    simp

/-! ## C2: time alignment (`equate_times`) -/

/-- Claim C2, counterexample to its final clause: the second field returned
by `equate_times A B` is the reference `B` restricted to the common times
(here carrying B's name, unit and data `[some 20]`), not `A` restricted to
the times in `B` (which is `A` itself here, with data `[some 10]`). -/
theorem C2_counterexample :
    equate_times ⟨"a", "ua", [1], [some 10]⟩ ⟨"b", "ub", [1, 2], [some 20, some 30]⟩ =
      .ok (⟨"a", "ua", [1], [some 10]⟩, ⟨"b", "ub", [1], [some 20]⟩) ∧
    extract_time ⟨"a", "ua", [1], [some 10]⟩ [1, 2] = some ⟨"a", "ua", [1], [some 10]⟩ ∧
    (⟨"b", "ub", [1], [some 20]⟩ : Cube) ≠ ⟨"a", "ua", [1], [some 10]⟩ :=
  ⟨by rfl, by rfl, by decide⟩

/-- Claim C2 as amended: `equate_times A B` returns two fields whose time
coordinates are both exactly the common subset of A's and B's times; the
first returned field is B restricted to the common times with name, unit
and data overwritten by A's restricted name, unit and data; and the second
returned field is B (the reference) restricted to the common times, not A
restricted. -/
theorem C2_amended (A B f1 f2 : Cube)
    (hA : A.times.length = A.data.length)
    (hB : B.times.length = B.data.length)
    (h : equate_times A B = .ok (f1, f2)) :
    f1.times = f2.times ∧
    (∀ t, t ∈ f1.times ↔ t ∈ A.times ∧ t ∈ B.times) ∧
    (∃ A1, extract_time A B.times = some A1 ∧
      f1.name = A1.name ∧ f1.units = A1.units ∧ f1.data = A1.data ∧
      extract_time B A1.times = some f2) := by
  unfold equate_times at h
  rcases hA1 : extract_time A B.times with _ | A1
  · rw [hA1] at h; cases h
  rw [hA1] at h
  simp only [] at h
  rcases hB1 : extract_time B A1.times with _ | B1
  · rw [hB1] at h; cases h
  rw [hB1] at h
  simp only [Except.ok.injEq, Prod.mk.injEq] at h
  obtain ⟨h1, h2⟩ := h
  subst h1
  subst h2
  have hmemA : ∀ t : ℤ, t ∈ A1.times ↔ t ∈ A.times ∧ t ∈ B.times := fun t =>
    aux_mem_extract_time hA hA1
  have hmemB : ∀ t : ℤ, t ∈ B1.times ↔ t ∈ B.times ∧ t ∈ A1.times := fun t =>
    aux_mem_extract_time hB hB1
  refine ⟨rfl, ?_, A1, rfl, rfl, rfl, rfl, hB1⟩
  intro t
  show t ∈ B1.times ↔ _
  rw [hmemB t]
  constructor
  · rintro ⟨hb, ha1⟩
    exact ⟨((hmemA t).mp ha1).1, hb⟩
  · rintro ⟨ha, hb⟩
    exact ⟨hb, (hmemA t).mpr ⟨ha, hb⟩⟩

/-- Witness for C2 (the spec's own example): fields at times `[0,1,2,3]`
and `[1,2,4]` align to the common time coordinate `[1,2]`. -/
theorem C2_amended_witness :
    (⟨"x", "u", [1, 2], [some 2, some 3]⟩ : Cube).times =
      (⟨"y", "v", [1, 2], [some 5, some 6]⟩ : Cube).times ∧
    (∀ t, t ∈ (⟨"x", "u", [1, 2], [some 2, some 3]⟩ : Cube).times ↔
      t ∈ ([0, 1, 2, 3] : List ℤ) ∧ t ∈ ([1, 2, 4] : List ℤ)) ∧
    (∃ A1, extract_time ⟨"x", "u", [0, 1, 2, 3], [some 1, some 2, some 3, some 4]⟩
        [1, 2, 4] = some A1 ∧
      (⟨"x", "u", [1, 2], [some 2, some 3]⟩ : Cube).name = A1.name ∧
      (⟨"x", "u", [1, 2], [some 2, some 3]⟩ : Cube).units = A1.units ∧
      (⟨"x", "u", [1, 2], [some 2, some 3]⟩ : Cube).data = A1.data ∧
      extract_time ⟨"y", "v", [1, 2, 4], [some 5, some 6, some 7]⟩ A1.times =
        some ⟨"y", "v", [1, 2], [some 5, some 6]⟩) := by
  exact C2_amended ⟨"x", "u", [0, 1, 2, 3], [some 1, some 2, some 3, some 4]⟩
    ⟨"y", "v", [1, 2, 4], [some 5, some 6, some 7]⟩ _ _ (by decide) (by decide)
    (by rfl)

/-! ## C7: fractional change (`diff`) -/

/-- Claim C7, confirmed: `diff` with no explicit reference index uses the
first non-missing value as reference when any value is valid (part 1);
otherwise the literal first value, yielding NaN throughout (part 2); the
result is `(field - reference) / reference` elementwise; and with an
explicit reference index `k` the output at `k` is exactly `0` wherever the
reference value is nonzero (part 3). -/
theorem C7_fractional_change (c : Cube) (k : ℕ) (r : ℚ) :
    (c.data.filter (fun v => v.isSome) ≠ [] →
      (diff c).data = c.data.map fun v =>
        vdiv (vsub v ((c.data.filter fun v => v.isSome).getD 0 none))
          ((c.data.filter fun v => v.isSome).getD 0 none)) ∧
    ((∀ v ∈ c.data, v = none) → ∀ w ∈ (diff c).data, w = none) ∧
    (c.data.getD k none = some r → r ≠ 0 →
      (diff c (some k)).data.getD k none = some 0) := by
  refine ⟨?_, ?_, ?_⟩
  · intro h
    simp [diff, List.isEmpty_iff, h]
  · intro h w hw
    have hfil : c.data.filter (fun v => v.isSome) = [] := by
      rw [List.filter_eq_nil_iff]
      intro a ha
      simp [h a ha]
    have hinit : c.data.getD 0 none = none := by
      cases hd : c.data with
      | nil => simp
      | cons a l =>
          have := h a (by rw [hd]; exact List.mem_cons_self _ _)
          simp [this]
    simp only [diff, hfil, List.isEmpty_nil, if_true, hinit] at hw
    obtain ⟨v, hv, rfl⟩ := List.mem_map.mp hw
    cases v <;> rfl
  · intro hk hr
    have hlt : k < c.data.length :=
      @aux_getD_ne_default _ c.data k none (by rw [hk]; simp)
    simp only [diff]
    rw [aux_getD_map _ _ _ hlt none, hk]
    simp [vsub, vdiv, hr]

/-- Witness for C7: with reference index 1 over `[NaN, 2, 4]` the output at
index 1 is exactly 0, and over the all-NaN series the output is NaN
throughout. -/
theorem C7_fractional_change_witness :
    (diff ⟨"m", "u", [0, 1, 2], [none, some 2, some 4]⟩ (some 1)).data.getD 1 none =
      some 0 ∧
    (∀ w ∈ (diff ⟨"m", "u", [0, 1], [none, none]⟩).data, w = none) :=
  ⟨(C7_fractional_change ⟨"m", "u", [0, 1, 2], [none, some 2, some 4]⟩ 1 2).2.2
      (by rfl) (by norm_num),
    (C7_fractional_change ⟨"m", "u", [0, 1], [none, none]⟩ 0 0).2.1 (by decide)⟩

/-! ## C8: inflow histogram bin edges (`_bin_edges`) -/

/-- Claim C8, counterexample: for the uniformly spaced grid `[0, 1]`
(`dx = 1`), the code's edges are `[-1, 0, 2]` (grid coordinates shifted by
one full spacing), not the claimed midpoints `[-1/2, 1/2, 3/2]`. -/
theorem C8_counterexample :
    _bin_edges [0, 1] = [-1, 0, 2] ∧
    bin_edges_spec [0, 1] = [-(1 / 2 : ℚ), 1 / 2, 3 / 2] ∧
    _bin_edges [0, 1] ≠ bin_edges_spec [0, 1] := by
  refine ⟨?_, ?_, ?_⟩ <;> norm_num [_bin_edges, bin_edges_spec, np_mean, np_diff]

theorem aux_np_diff_const (x : List ℚ) (dx : ℚ)
    (hstep : ∀ i ∈ List.range (x.length - 1), x.getD (i + 1) 0 - x.getD i 0 = dx) :
    np_diff x = List.replicate (x.length - 1) dx := by
  induction x with
  | nil => rfl
  | cons a x ih =>
      cases x with
      | nil => rfl
      | cons b t =>
          have h0 : b - a = dx := by
            have := hstep 0 (by simp)
            simpa using this
          have ht : np_diff (b :: t) = List.replicate ((b :: t).length - 1) dx := by
            apply ih
            intro i hi
            have hi2 : i + 1 ∈ List.range ((a :: b :: t).length - 1) := by
              simp only [List.mem_range, List.length_cons] at hi ⊢
              omega
            have := hstep (i + 1) hi2
            simpa [List.getD_cons_succ] using this
          show (b - a) :: np_diff (b :: t) = _
          rw [h0, ht]
          simp only [List.length_cons, Nat.add_sub_cancel]
          rfl

/-- Claim C8 as amended: for a uniformly spaced reference coordinate of
length `n ≥ 2` with spacing `dx`, `_bin_edges` returns `n + 1` edges equal
to the grid coordinates each shifted down by one full grid spacing,
followed by a top edge one full spacing above the last coordinate
(`edge_i = x_i - dx`, `edge_n = x_last + dx`), not the cell midpoints. -/
theorem C8_amended (x : List ℚ) (dx : ℚ) (hlen : 2 ≤ x.length)
    (hstep : ∀ i ∈ List.range (x.length - 1), x.getD (i + 1) 0 - x.getD i 0 = dx) :
    _bin_edges x = (x.map fun xi => xi - dx) ++ [x.getLastD 0 + dx] ∧
    (_bin_edges x).length = x.length + 1 := by
  have hdiff := aux_np_diff_const x dx hstep
  have hne : ((x.length - 1 : ℕ) : ℚ) ≠ 0 := by
    have h1 : x.length - 1 ≠ 0 := by omega
    exact_mod_cast h1
  have hmean : np_mean (np_diff x) = dx := by
    rw [hdiff]
    simp only [np_mean, List.sum_replicate, List.length_replicate,
      nsmul_eq_mul]
    exact mul_div_cancel_left₀ dx hne
  constructor
  · simp only [_bin_edges, hmean]
  · simp only [_bin_edges, hmean]
    simp

/-- Witness for C8 at the uniform grid `[0, 1/2, 1]` with spacing `1/2`. -/
theorem C8_amended_witness :
    _bin_edges [0, 1 / 2, 1] =
      (([0, 1 / 2, 1] : List ℚ).map fun xi => xi - 1 / 2) ++
        [([0, 1 / 2, 1] : List ℚ).getLastD 0 + 1 / 2] ∧
    (_bin_edges [0, 1 / 2, 1]).length = ([0, 1 / 2, 1] : List ℚ).length + 1 :=
  C8_amended [0, 1 / 2, 1] (1 / 2) (by norm_num)
    (by intro i hi; fin_cases hi <;> norm_num)

/-! ## C9: the diagnostic dispatcher (`get_cube_by_name`) -/

/-- Claim C9, counterexample: a stored field named exactly `"x vorticity"`
is not returned directly — the name contains `"vorticity"`, so the
dispatcher routes to the vorticity rule first, which fails for lack of an
`"area"` field; the claim says exact matches against stored fields take
effect first. -/
theorem C9_counterexample :
    (([⟨"x vorticity", "u", [0], [some 1]⟩] : List Cube).filter
        (fun c => c.name == "x vorticity")) =
      [⟨"x vorticity", "u", [0], [some 1]⟩] ∧
    get_cube_by_name [⟨"x vorticity", "u", [0], [some 1]⟩] "x vorticity" =
      .error "ConstraintMismatchError" :=
  ⟨by decide, by rfl⟩

/-- Claim C9 as amended: the dispatcher tries the pattern rules first, in
source order — literal `"density"`, then any name containing `"vorticity"`
(suffix of 9 characters stripped), then any name containing `"PV"` (suffix
of 2 characters stripped), then the literal ratio name — and only a name
matching no pattern falls through to strict extraction of the exact name,
which succeeds exactly when precisely one stored field has that name. -/
theorem C9_amended (cubes : List Cube) (name : String) :
    (name = "density" → get_cube_by_name cubes name = density cubes) ∧
    (name ≠ "density" → str_contains name "vorticity" = true →
      get_cube_by_name cubes name = vorticity cubes (name.dropRight 9)) ∧
    (name ≠ "density" → str_contains name "vorticity" = false →
      str_contains name "PV" = true →
      get_cube_by_name cubes name = potential_vorticity cubes (name.dropRight 2)) ∧
    (name ≠ "density" → str_contains name "vorticity" = false →
      str_contains name "PV" = false → name = "mass area anomaly ratio" →
      get_cube_by_name cubes name = ratio cubes) ∧
    (name ≠ "density" → str_contains name "vorticity" = false →
      str_contains name "PV" = false → name ≠ "mass area anomaly ratio" →
      get_cube_by_name cubes name = extract_strict cubes name ∧
      ((∃ c, extract_strict cubes name = .ok c) ↔
        (cubes.filter fun c => c.name == name).length = 1)) := by
  refine ⟨?_, ?_, ?_, ?_, ?_⟩
  · intro h
    simp [get_cube_by_name, h]
  · intro h1 h2
    simp [get_cube_by_name, beq_eq_false_iff_ne.mpr h1, h2]
  · intro h1 h2 h3
    simp [get_cube_by_name, beq_eq_false_iff_ne.mpr h1, h2, h3]
  · intro h1 h2 h3 h4
    simp [get_cube_by_name, beq_eq_false_iff_ne.mpr h1, h2, h3,
      beq_iff_eq.mpr h4]
  · intro h1 h2 h3 h4
    refine ⟨by simp [get_cube_by_name, beq_eq_false_iff_ne.mpr h1, h2, h3,
      beq_eq_false_iff_ne.mpr h4], ?_⟩
    unfold extract_strict
    rcases hf : cubes.filter fun c => c.name == name with _ | ⟨c, _ | ⟨d, t⟩⟩ <;>
      rw [hf] <;> simp

/-- Witness for C9: a name matching no pattern resolves by exact strict
extraction, succeeding for the unique stored field of that name. -/
theorem C9_amended_witness :
    get_cube_by_name [⟨"mass", "kg", [0], [some 1]⟩] "mass" =
      extract_strict [⟨"mass", "kg", [0], [some 1]⟩] "mass" ∧
    ((∃ c, extract_strict [⟨"mass", "kg", [0], [some 1]⟩] "mass" = .ok c) ↔
      (([⟨"mass", "kg", [0], [some 1]⟩] : List Cube).filter
        fun c => c.name == "mass").length = 1) :=
  (C9_amended [⟨"mass", "kg", [0], [some 1]⟩] "mass").2.2.2.2
    (by decide) (by decide) (by decide) (by decide)

/-! ## C4: per-level accumulation in the driver (`outflow_th`) -/

theorem aux_outflow_fold_some
    (extract : ℝ → Option (List (ℝ × ℝ) × List (ℝ × ℝ × ℝ)))
    (levels : List ℝ) :
    ∀ B V ns, levels.foldl (outflow_thStep extract) (some (B, V), ns) =
      (some (B ++ outflowBoundariesSpec levels extract,
             V ++ outflowVolumeSpec levels extract),
       ns ++ levels.filter fun θ => (extract θ).isNone) := by
  induction levels with
  | nil => intro B V ns; simp [outflowBoundariesSpec, outflowVolumeSpec]
  | cons θ rest ih =>
      intro B V ns
      cases hx : extract θ with
      | some bp =>
          simp only [List.foldl_cons, outflow_thStep, hx, ih,
            outflowBoundariesSpec, outflowVolumeSpec, List.flatMap_cons,
            List.filter_cons, List.append_assoc, Option.isNone_some]
          simp [hx, tagBoundary, tagVolume]
      | none =>
          simp only [List.foldl_cons, outflow_thStep, hx, ih,
            outflowBoundariesSpec, outflowVolumeSpec, List.flatMap_cons,
            List.filter_cons, Option.isNone_none]
          simp [hx, List.append_assoc]

theorem aux_outflow_fold
    (extract : ℝ → Option (List (ℝ × ℝ) × List (ℝ × ℝ × ℝ)))
    (levels : List ℝ) :
    ∀ ns, levels.foldl (outflow_thStep extract) (none, ns) =
      ((if levels.any fun θ => (extract θ).isSome then
          some (outflowBoundariesSpec levels extract,
                outflowVolumeSpec levels extract)
        else none),
       ns ++ levels.filter fun θ => (extract θ).isNone) := by
  induction levels with
  | nil => intro ns; simp
  | cons θ rest ih =>
      intro ns
      cases hx : extract θ with
      | some bp =>
          simp only [List.foldl_cons, outflow_thStep, hx,
            aux_outflow_fold_some, outflowBoundariesSpec, outflowVolumeSpec,
            List.flatMap_cons, List.filter_cons, List.any_cons]
          simp [hx, tagBoundary, tagVolume]
      | none =>
          simp only [List.foldl_cons, outflow_thStep, hx, ih,
            outflowBoundariesSpec, outflowVolumeSpec, List.flatMap_cons,
            List.filter_cons, List.any_cons]
          simp [hx, List.append_assoc]

/-- Claim C4, counterexample to its all-levels-failing corner: when every
level fails and saving is requested, `np.save` reads the never-assigned
local `outflow_boundaries` and the driver dies with `NameError` instead of
leaving the (empty) concatenation; without saving the accumulator is simply
absent. -/
theorem C4_counterexample :
    outflow_th [300] (fun _ => none) true =
      .error "NameError: name outflow_boundaries is not defined" ∧
    outflow_th [300] (fun _ => none) false = .ok ⟨none, [300], none⟩ :=
  ⟨rfl, rfl⟩

/-- Claim C4 as amended: provided at least one level succeeds, each failing
level contributes only a console notice, and the accumulated boundary and
volume arrays equal the in-order concatenation of the theta-tagged
boundaries and interior points of exactly the successful levels; when
saving is requested exactly those arrays are written.  (When every level
fails, the arrays are unbound and a save request raises `NameError`.) -/
theorem C4_amended (levels : List ℝ)
    (extract : ℝ → Option (List (ℝ × ℝ) × List (ℝ × ℝ × ℝ))) (save : Bool)
    (h : ∃ θ ∈ levels, (extract θ).isSome) :
    outflow_th levels extract save = .ok
      ⟨some (outflowBoundariesSpec levels extract,
             outflowVolumeSpec levels extract),
        levels.filter fun θ => (extract θ).isNone,
        if save then
          some (outflowBoundariesSpec levels extract,
                outflowVolumeSpec levels extract)
        else none⟩ := by
  have hany : (levels.any fun θ => (extract θ).isSome) = true := by
    obtain ⟨θ, hθ, hs⟩ := h
    exact List.any_eq_true.mpr ⟨θ, hθ, hs⟩
  unfold outflow_th
  rw [aux_outflow_fold]
  rw [hany]
  cases save <;> simp

/-- Witness for C4 at a single succeeding level. -/
theorem C4_amended_witness :
    outflow_th [(7 : ℝ)] (fun _ => some ([(1, 2)], [(3, 4, 5)])) true =
      .ok ⟨some ([(1, 2, 7)], [(3, 4, 5, 7)]), [],
        some ([(1, 2, 7)], [(3, 4, 5, 7)])⟩ := by
  have h := C4_amended [(7 : ℝ)] (fun _ => some ([(1, 2)], [(3, 4, 5)])) true
    ⟨7, by simp, by simp⟩
  simpa [outflowBoundariesSpec, outflowVolumeSpec, tagBoundary, tagVolume]
    using h

/-! ## Basic haversine lemmas -/

theorem haversine_self (p : ℝ × ℝ) : haversine p p = 0 := by
  simp [haversine, deg2rad]

theorem aux_sin_sq_swap (x y : ℝ) :
    Real.sin ((x - y) / 2) ^ 2 = Real.sin ((y - x) / 2) ^ 2 := by
  rw [show x - y = -(y - x) by ring, neg_div, Real.sin_neg, neg_sq]

theorem haversine_comm (p q : ℝ × ℝ) : haversine p q = haversine q p := by
  simp only [haversine]
  rw [aux_sin_sq_swap (deg2rad q.2) (deg2rad p.2),
    aux_sin_sq_swap (deg2rad q.1) (deg2rad p.1),
    mul_comm (Real.cos (deg2rad p.2)) (Real.cos (deg2rad q.2))]

theorem haversine_nonneg (p q : ℝ × ℝ) : 0 ≤ haversine p q := by
  have h1 : 0 ≤ Real.arcsin (Real.sqrt (Real.sin ((deg2rad q.2 - deg2rad p.2) / 2) ^ 2 +
      Real.cos (deg2rad p.2) * Real.cos (deg2rad q.2) *
        Real.sin ((deg2rad q.1 - deg2rad p.1) / 2) ^ 2)) :=
    Real.arcsin_nonneg.mpr (Real.sqrt_nonneg _)
  simp only [haversine]
  nlinarith

theorem aux_abs_sin (t : ℝ) (h : |t| ≤ Real.pi) : |Real.sin t| = Real.sin |t| := by
  rcases le_or_lt 0 t with ht | ht
  · rw [abs_of_nonneg ht, abs_of_nonneg]
    exact Real.sin_nonneg_of_nonneg_of_le_pi ht (by rwa [abs_of_nonneg ht] at h)
  · have hs : 0 ≤ Real.sin (-t) :=
      Real.sin_nonneg_of_nonneg_of_le_pi (by linarith)
        (by rwa [abs_of_neg ht] at h)
    rw [abs_of_neg ht]
    calc |Real.sin t| = |Real.sin (-t)| := by rw [Real.sin_neg, abs_neg]
    _ = Real.sin (-t) := abs_of_nonneg hs

/-- On the equator the haversine distance is proportional to the longitude
difference (for differences up to 180 degrees). -/
theorem haversine_equator (x1 x2 : ℝ) (h : |x2 - x1| ≤ 180) :
    haversine (x1, 0) (x2, 0) = 6371 * (Real.pi / 180) * |x2 - x1| := by
  have hpi := Real.pi_pos
  have habs : |(x2 - x1) * (Real.pi / 180) / 2| = |x2 - x1| * (Real.pi / 360) := by
    rw [abs_div, abs_mul, abs_of_nonneg (by positivity : (0:ℝ) ≤ Real.pi / 180)]
    rw [abs_of_nonneg (by norm_num : (0:ℝ) ≤ (2:ℝ))]
    ring
  have hb : |x2 - x1| * (Real.pi / 360) ≤ Real.pi / 2 := by nlinarith [abs_nonneg (x2 - x1)]
  have hb0 : 0 ≤ |x2 - x1| * (Real.pi / 360) := by positivity
  simp only [haversine, deg2rad]
  rw [show (0:ℝ) * (Real.pi / 180) = 0 by ring]
  norm_num
  rw [show x2 * (Real.pi / 180) - x1 * (Real.pi / 180) =
    (x2 - x1) * (Real.pi / 180) by ring]
  rw [Real.sqrt_sq_eq_abs]
  rw [aux_abs_sin _ (by rw [habs]; linarith)]
  rw [habs]
  rw [Real.arcsin_sin (by linarith) hb]
  ring

theorem aux_contour_length_nonneg (c : List (ℝ × ℝ)) : 0 ≤ contour_length c := by
  unfold contour_length
  have h1 : 0 ≤ ((c.zip c.tail).map fun pq => haversine pq.1 pq.2).sum := by
    apply List.sum_nonneg
    intro x hx
    obtain ⟨pq, _, rfl⟩ := List.mem_map.mp hx
    exact haversine_nonneg _ _
  have h2 := haversine_nonneg (c.getLastD (0, 0)) (c.headD (0, 0))
  linarith

/-! ## `np_argmax` lemmas -/

theorem aux_argmax_lt_length (l : List ℝ) (h : l ≠ []) : np_argmax l < l.length := by
  induction l with
  | nil => exact absurd rfl h
  | cons x xs ih =>
      cases xs with
      | nil => simp [np_argmax]
      | cons y t =>
          simp only [np_argmax]
          split
          · have := ih (by simp)
            simpa using Nat.succ_lt_succ this
          · simp

theorem aux_argmax_le (l : List ℝ) :
    ∀ i < l.length, l.getD i 0 ≤ l.getD (np_argmax l) 0 := by
  induction l with
  | nil => intro i hi; simp at hi
  | cons x xs ih =>
      cases xs with
      | nil =>
          intro i hi
          have hi0 : i = 0 := by simpa using Nat.lt_one_iff.mp (by simpa using hi)
          subst hi0
          simp [np_argmax]
      | cons y t =>
          intro i hi
          simp only [np_argmax]
          split
          · rename_i hlt
            cases i with
            | zero => simpa using le_of_lt hlt
            | succ i =>
                simpa using ih i (by simpa using hi)
          · rename_i hge
            push_neg at hge
            cases i with
            | zero => simp
            | succ i =>
                have := ih i (by simpa using hi)
                simpa using le_trans this hge

theorem aux_argmax_first (l : List ℝ) :
    ∀ j < np_argmax l, l.getD j 0 < l.getD (np_argmax l) 0 := by
  induction l with
  | nil => intro j hj; simp [np_argmax] at hj
  | cons x xs ih =>
      cases xs with
      | nil => intro j hj; simp [np_argmax] at hj
      | cons y t =>
          intro j hj
          simp only [np_argmax] at hj ⊢
          split
          · rename_i hlt
            cases j with
            | zero => simpa using hlt
            | succ j =>
                rw [if_pos hlt] at hj
                simpa using ih j (by omega)
          · rename_i hge
            rw [if_neg hge] at hj
            omega

/-! ## C3: the contour selector (`get_longest_closed_contour`) -/

open scoped Classical in
/-- Claim C3, counterexample to its "i.e. every candidate is open" clause: a
single degenerate candidate (one point) is closed, yet the selector still
fails with the no-closed-contour error, because its zeroed length is
zero. -/
theorem C3_counterexample :
    get_longest_closed_contour [[((0:ℝ), (0:ℝ))]] =
      .error "No closed contours found" ∧
    is_closed_contour [((0:ℝ), (0:ℝ))] 100 := by
  have hc : is_closed_contour [((0:ℝ), (0:ℝ))] 100 := by
    simp [is_closed_contour, haversine_self]
  have hl : contour_length [((0:ℝ), (0:ℝ))] = 0 := by
    simp [contour_length, haversine_self]
  refine ⟨?_, hc⟩
  unfold get_longest_closed_contour
  rw [if_neg (by simp)]
  simp only [List.map_cons, List.map_nil, hl]
  rw [if_pos hc]
  simp [np_argmax]

open scoped Classical in
/-- Claim C3 as amended: the selector returns the first candidate attaining
the maximal zeroed length when that maximum is positive — in particular a
closed candidate of maximal `contour_length` among the closed candidates,
with the first occurrence winning ties — and fails with the
no-closed-contour error exactly when the maximum of the zeroed lengths is
zero, i.e. when every closed candidate has zero length (in particular when
every candidate is open, but also for degenerate closed candidates). -/
theorem C3_amended (contours : List (List (ℝ × ℝ))) (h : contours ≠ []) :
    (get_longest_closed_contour contours = .error "No closed contours found" ↔
      ∀ c ∈ contours, is_closed_contour c 100 → contour_length c = 0) ∧
    (∀ c, get_longest_closed_contour contours = .ok c →
      ∃ i, i < contours.length ∧ c = contours.getD i [] ∧
        is_closed_contour (contours.getD i []) 100 ∧
        0 < contour_length (contours.getD i []) ∧
        (∀ j, j < contours.length → is_closed_contour (contours.getD j []) 100 →
          contour_length (contours.getD j []) ≤ contour_length (contours.getD i [])) ∧
        (∀ j, j < i → is_closed_contour (contours.getD j []) 100 →
          contour_length (contours.getD j []) < contour_length (contours.getD i []))) := by
  set lengths := contours.map fun x =>
    if is_closed_contour x 100 then contour_length x else 0 with hlengths
  have hlen : lengths.length = contours.length := by simp [hlengths]
  have hgetD : ∀ i, i < contours.length → lengths.getD i 0 =
      if is_closed_contour (contours.getD i []) 100 then
        contour_length (contours.getD i []) else 0 := by
    intro i hi
    rw [hlengths]
    exact aux_getD_map _ contours i hi [] 0
  have hnonneg : ∀ i, i < contours.length → 0 ≤ lengths.getD i 0 := by
    intro i hi
    rw [hgetD i hi]
    split
    · exact aux_contour_length_nonneg _
    · exact le_refl 0
  have hpos : 0 < contours.length := List.length_pos.mpr h
  have hlne : lengths ≠ [] := List.length_pos.mp (by rw [hlen]; exact hpos)
  have himax : np_argmax lengths < contours.length := by
    rw [← hlen]; exact aux_argmax_lt_length _ hlne
  have hnotempty : ¬(contours.isEmpty = true) := by
    simp only [List.isEmpty_iff]; exact h
  constructor
  · constructor
    · intro herr c hc hclosed
      unfold get_longest_closed_contour at herr
      rw [if_neg hnotempty] at herr
      simp only [← hlengths] at herr
      by_cases hz : lengths.getD (np_argmax lengths) 0 = 0
      swap
      · rw [if_neg hz] at herr; cases herr
      obtain ⟨i, hi, hci⟩ := List.mem_iff_getElem.mp hc
      have hcd : contours.getD i [] = c := by
        rw [List.getD_eq_getElem contours [] hi, hci]
      have hle := aux_argmax_le lengths i (by rw [hlen]; exact hi)
      rw [hz] at hle
      rw [hgetD i hi, hcd, if_pos hclosed] at hle
      have := aux_contour_length_nonneg c
      linarith
    · intro hall
      unfold get_longest_closed_contour
      rw [if_neg hnotempty]
      simp only [← hlengths]
      rw [if_pos ?_]
      rw [hgetD _ himax]
      split
      · rename_i hcl
        refine hall _ ?_ hcl
        rw [List.getD_eq_getElem contours [] himax]
        exact List.getElem_mem _
      · rfl
  · intro c hok
    unfold get_longest_closed_contour at hok
    rw [if_neg hnotempty] at hok
    simp only [← hlengths] at hok
    by_cases hz : lengths.getD (np_argmax lengths) 0 = 0
    · rw [if_pos hz] at hok; cases hok
    rw [if_neg hz] at hok
    have hc : c = contours.getD (np_argmax lengths) [] := by
      cases hok; rfl
    have hcl : is_closed_contour (contours.getD (np_argmax lengths) []) 100 := by
      by_contra hncl
      apply hz
      rw [hgetD _ himax, if_neg hncl]
    have hmaxval : lengths.getD (np_argmax lengths) 0 =
        contour_length (contours.getD (np_argmax lengths) []) := by
      rw [hgetD _ himax, if_pos hcl]
    refine ⟨np_argmax lengths, himax, hc, hcl, ?_, ?_, ?_⟩
    · have h0 := aux_contour_length_nonneg (contours.getD (np_argmax lengths) [])
      rw [hmaxval] at hz
      exact lt_of_le_of_ne h0 (Ne.symm hz)
    · intro j hj hclj
      have hle := aux_argmax_le lengths j (by rw [hlen]; exact hj)
      rw [hgetD j hj, if_pos hclj, hmaxval] at hle
      exact hle
    · intro j hj hclj
      have hlt := aux_argmax_first lengths j hj
      have hjlen : j < contours.length := lt_trans hj himax
      rw [hgetD j hjlen, if_pos hclj, hmaxval] at hlt
      exact hlt

/-- Witness for C3: applying the amended selector characterisation at a
concrete one-candidate input and evaluating it. -/
theorem C3_amended_witness :
    get_longest_closed_contour [[((10:ℝ), (20:ℝ))]] =
      .error "No closed contours found" := by
  have h := C3_amended [[((10:ℝ), (20:ℝ))]] (by simp)
  rw [h.1]
  intro c hc _
  have hc2 : c = [((10:ℝ), (20:ℝ))] := by simpa using hc
  subst hc2
  simp [contour_length, haversine_self]

/-! ## Step evaluation lemmas for the resampler -/

theorem haversine_equator_of_le (x1 x2 : ℝ) (h1 : x1 ≤ x2) (h2 : x2 - x1 ≤ 180) :
    haversine (x1, 0) (x2, 0) = 6371 * (Real.pi / 180) * (x2 - x1) := by
  rw [haversine_equator x1 x2 (by rw [abs_of_nonneg (by linarith)]; linarith),
    abs_of_nonneg (by linarith : (0:ℝ) ≤ x2 - x1)]

theorem aux_icrRun_succ (r : ℝ) (fuel : ℕ) (s : IcrState) :
    icrRun r (fuel + 1) s =
      if s.n < s.points.length then icrRun r fuel (icrStep r s)
      else some s.points := rfl

theorem aux_icrFrameRun_succ (r : ℝ) (fuel : ℕ) (f : IcrFrame) :
    icrFrameRun r (fuel + 1) f =
      if f.n < f.points.length then icrFrameRun r fuel (icrFrameStep r f)
      else some (f.caller, f.points) := rfl

theorem aux_icrStep_insert (r : ℝ) (pts : List (ℝ × ℝ)) (n : ℕ) (p q newp : ℝ × ℝ)
    (hn : pts.getD n (0, 0) = p)
    (hnp : pts.getD ((n + 1) % pts.length) (0, 0) = q)
    (hlt : r < haversine p q)
    (hnew : newp = (p.1 + (r / haversine p q) * (q.1 - p.1),
                    p.2 + (r / haversine p q) * (q.2 - p.2))) :
    icrStep r ⟨pts, n⟩ = ⟨pts.insertIdx ((n + 1) % pts.length) newp, n + 1⟩ := by
  unfold icrStep
  simp only [hn, hnp]
  rw [if_pos hlt, hnew]

theorem aux_icrStep_skip (r : ℝ) (pts : List (ℝ × ℝ)) (n : ℕ) (p q : ℝ × ℝ)
    (hn : pts.getD n (0, 0) = p)
    (hnp : pts.getD ((n + 1) % pts.length) (0, 0) = q)
    (hge : haversine p q ≤ r) :
    icrStep r ⟨pts, n⟩ = ⟨pts, n + 1⟩ := by
  unfold icrStep
  simp only [hn, hnp]
  rw [if_neg (not_lt.mpr hge)]

/-- The full resampler run on the closed equatorial contour
`[(0,0), (0.8,0)]` at resolution `(6371 π/180)·0.3` km (about 33.4 km,
while the points are about 89 km apart): the wrap edge gets one point
inserted at index 0 and the loop then stops, leaving the consecutive pair
from `(0.5, 0)` to `(0, 0)` at distance `(6371 π/180)·0.5`, well above the
resolution. -/
theorem aux_equator_run :
    icrRun (6371 * (Real.pi / 180) * (3 / 10)) 6 ⟨[((0:ℝ), 0), (4 / 5, 0)], 0⟩ =
      some [((1 / 2 : ℝ), 0), (0, 0), (3 / 10, 0), (3 / 5, 0), (4 / 5, 0)] := by
  have hpi := Real.pi_pos
  have hK : (0:ℝ) < 6371 * (Real.pi / 180) := by positivity
  have hKne : (6371:ℝ) * (Real.pi / 180) ≠ 0 := ne_of_gt hK
  have hd08 : haversine ((0:ℝ), 0) ((4 / 5 : ℝ), 0) =
      6371 * (Real.pi / 180) * (4 / 5) := by
    rw [haversine_equator_of_le 0 (4 / 5) (by norm_num) (by norm_num)]
    norm_num
  have hd35 : haversine ((3 / 10 : ℝ), 0) ((4 / 5 : ℝ), 0) =
      6371 * (Real.pi / 180) * (1 / 2) := by
    rw [haversine_equator_of_le (3 / 10) (4 / 5) (by norm_num) (by norm_num)]
    norm_num
  have hd65 : haversine ((3 / 5 : ℝ), 0) ((4 / 5 : ℝ), 0) =
      6371 * (Real.pi / 180) * (1 / 5) := by
    rw [haversine_equator_of_le (3 / 5) (4 / 5) (by norm_num) (by norm_num)]
    norm_num
  have hd80 : haversine ((4 / 5 : ℝ), 0) ((0:ℝ), 0) =
      6371 * (Real.pi / 180) * (4 / 5) := by
    rw [haversine_comm]; exact hd08
  have hd85 : haversine ((4 / 5 : ℝ), 0) ((1 / 2 : ℝ), 0) =
      6371 * (Real.pi / 180) * (3 / 10) := by
    rw [haversine_comm,
      haversine_equator_of_le (1 / 2) (4 / 5) (by norm_num) (by norm_num)]
    norm_num
  have hs0 : icrStep (6371 * (Real.pi / 180) * (3 / 10))
      ⟨[((0:ℝ), 0), (4 / 5, 0)], 0⟩ =
      ⟨[((0:ℝ), 0), (3 / 10, 0), (4 / 5, 0)], 1⟩ := by
    rw [aux_icrStep_insert _ [((0:ℝ), 0), (4 / 5, 0)] 0 ((0:ℝ), 0) ((4 / 5 : ℝ), 0)
      ((3 / 10 : ℝ), 0) rfl rfl (by rw [hd08]; nlinarith)
      (by
        rw [hd08]
        simp only [Prod.mk.injEq]
        constructor
        · field_simp
          ring
        · ring)]
    rfl
  have hs1 : icrStep (6371 * (Real.pi / 180) * (3 / 10))
      ⟨[((0:ℝ), 0), (3 / 10, 0), (4 / 5, 0)], 1⟩ =
      ⟨[((0:ℝ), 0), (3 / 10, 0), (3 / 5, 0), (4 / 5, 0)], 2⟩ := by
    rw [aux_icrStep_insert _ [((0:ℝ), 0), (3 / 10, 0), (4 / 5, 0)] 1
      ((3 / 10 : ℝ), 0) ((4 / 5 : ℝ), 0) ((3 / 5 : ℝ), 0) rfl rfl
      (by rw [hd35]; nlinarith)
      (by
        rw [hd35]
        simp only [Prod.mk.injEq]
        constructor
        · field_simp
          ring
        · ring)]
    rfl
  have hs2 : icrStep (6371 * (Real.pi / 180) * (3 / 10))
      ⟨[((0:ℝ), 0), (3 / 10, 0), (3 / 5, 0), (4 / 5, 0)], 2⟩ =
      ⟨[((0:ℝ), 0), (3 / 10, 0), (3 / 5, 0), (4 / 5, 0)], 3⟩ :=
    aux_icrStep_skip _ [((0:ℝ), 0), (3 / 10, 0), (3 / 5, 0), (4 / 5, 0)] 2
      ((3 / 5 : ℝ), 0) ((4 / 5 : ℝ), 0) rfl rfl (by rw [hd65]; nlinarith)
  have hs3 : icrStep (6371 * (Real.pi / 180) * (3 / 10))
      ⟨[((0:ℝ), 0), (3 / 10, 0), (3 / 5, 0), (4 / 5, 0)], 3⟩ =
      ⟨[((1 / 2 : ℝ), 0), (0, 0), (3 / 10, 0), (3 / 5, 0), (4 / 5, 0)], 4⟩ := by
    rw [aux_icrStep_insert _ [((0:ℝ), 0), (3 / 10, 0), (3 / 5, 0), (4 / 5, 0)] 3
      ((4 / 5 : ℝ), 0) ((0:ℝ), 0) ((1 / 2 : ℝ), 0) rfl rfl
      (by rw [hd80]; nlinarith)
      (by
        rw [hd80]
        simp only [Prod.mk.injEq]
        constructor
        · field_simp
          ring
        · ring)]
    rfl
  have hs4 : icrStep (6371 * (Real.pi / 180) * (3 / 10))
      ⟨[((1 / 2 : ℝ), 0), (0, 0), (3 / 10, 0), (3 / 5, 0), (4 / 5, 0)], 4⟩ =
      ⟨[((1 / 2 : ℝ), 0), (0, 0), (3 / 10, 0), (3 / 5, 0), (4 / 5, 0)], 5⟩ :=
    aux_icrStep_skip _ [((1 / 2 : ℝ), 0), (0, 0), (3 / 10, 0), (3 / 5, 0), (4 / 5, 0)]
      4 ((4 / 5 : ℝ), 0) ((1 / 2 : ℝ), 0) rfl rfl (by rw [hd85])
  rw [aux_icrRun_succ, if_pos (by simp), hs0,
    aux_icrRun_succ, if_pos (by simp), hs1,
    aux_icrRun_succ, if_pos (by simp), hs2,
    aux_icrRun_succ, if_pos (by simp), hs3,
    aux_icrRun_succ, if_pos (by simp), hs4,
    aux_icrRun_succ, if_neg (by simp)]

/-! ## C5 (counterexample part): the resampler's spacing guarantee fails -/

/-- Claim C5, counterexample: for the closed two-point equatorial polygon
`[(0,0), (0.8,0)]` and positive spacing `(6371 π/180)·0.3` km, the
resampler terminates, preserves order and closure, but its output contains
the consecutive pair `(0.5,0), (0,0)` at distance `(6371 π/180)·0.5` km —
five thirds of the requested spacing, far beyond floating tolerance.  The
wrap-edge insertion lands at index 0 and the scan (stuck at the last point)
never re-examines the gap between the inserted point and the original first
point. -/
theorem C5_counterexample :
    increase_circuit_resolution [((0:ℝ), 0), (4 / 5, 0)]
        (6371 * (Real.pi / 180) * (3 / 10)) 6 =
      some [((1 / 2 : ℝ), 0), (0, 0), (3 / 10, 0), (3 / 5, 0), (4 / 5, 0)] ∧
    is_closed_contour [((0:ℝ), 0), (4 / 5, 0)] 100 ∧
    0 < 6371 * (Real.pi / 180) * (3 / 10) ∧
    haversine ((1 / 2 : ℝ), 0) ((0:ℝ), 0) = 6371 * (Real.pi / 180) * (1 / 2) ∧
    6371 * (Real.pi / 180) * (3 / 10) < 6371 * (Real.pi / 180) * (1 / 2) := by
  have hpi := Real.pi_pos
  have hlt315 := Real.pi_lt_d2
  refine ⟨aux_equator_run, ?_, by positivity, ?_, by nlinarith⟩
  · show haversine ((0:ℝ), 0) ((4 / 5 : ℝ), 0) < 100
    rw [haversine_equator_of_le 0 (4 / 5) (by norm_num) (by norm_num)]
    nlinarith
  · rw [haversine_comm, haversine_equator_of_le 0 (1 / 2) (by norm_num) (by norm_num)]
    norm_num

/-! ## C1: `get_points` discards the resampled boundary -/

/-- Claim C1, failing-input evaluation (code bug): on the single candidate
contour `[(0,0), (0.8,0)]` with requested resolution `(6371 π/180)·0.3` km,
`get_points` returns the selected contour unresampled — its two boundary
points are `(6371 π/180)·0.8` km apart, far above the resolution — although
the (discarded) result of `increase_circuit_resolution` is a different,
refined polygon.  The interior points are likewise classified against the
unresampled loop. -/
theorem C1_boundary_not_resampled :
    get_points [[((0:ℝ), 0), (4 / 5, 0)]] [] (fun _ _ => false)
        (6371 * (Real.pi / 180) * (3 / 10)) 6 =
      .ok ([((0:ℝ), 0), (4 / 5, 0)], []) ∧
    6371 * (Real.pi / 180) * (3 / 10) < haversine ((0:ℝ), 0) ((4 / 5 : ℝ), 0) ∧
    increase_circuit_resolution [((0:ℝ), 0), (4 / 5, 0)]
        (6371 * (Real.pi / 180) * (3 / 10)) 6 =
      some [((1 / 2 : ℝ), 0), (0, 0), (3 / 10, 0), (3 / 5, 0), (4 / 5, 0)] ∧
    [((1 / 2 : ℝ), 0), (0, 0), (3 / 10, 0), (3 / 5, 0), (4 / 5, 0)] ≠
      [((0:ℝ), 0), (4 / 5, 0)] := by
  have hpi := Real.pi_pos
  have hlt315 := Real.pi_lt_d2
  have hd08 : haversine ((0:ℝ), 0) ((4 / 5 : ℝ), 0) =
      6371 * (Real.pi / 180) * (4 / 5) := by
    rw [haversine_equator_of_le 0 (4 / 5) (by norm_num) (by norm_num)]
    norm_num
  have hclosed : is_closed_contour [((0:ℝ), 0), (4 / 5, 0)] 100 := by
    show haversine ((0:ℝ), 0) ((4 / 5 : ℝ), 0) < 100
    rw [hd08]; nlinarith
  have hlen : contour_length [((0:ℝ), 0), (4 / 5, 0)] =
      2 * (6371 * (Real.pi / 180) * (4 / 5)) := by
    show haversine ((4 / 5 : ℝ), 0) ((0:ℝ), 0) +
      (haversine ((0:ℝ), 0) ((4 / 5 : ℝ), 0) + 0) = _
    rw [haversine_comm ((4 / 5 : ℝ), 0) ((0:ℝ), 0), hd08]
    ring
  have hsel : get_longest_closed_contour [[((0:ℝ), 0), (4 / 5, 0)]] =
      .ok [((0:ℝ), 0), (4 / 5, 0)] := by
    unfold get_longest_closed_contour
    rw [if_neg (by simp)]
    simp only [List.map_cons, List.map_nil]
    rw [if_pos hclosed]
    have hargmax : np_argmax [contour_length [((0:ℝ), 0), (4 / 5, 0)]] = 0 := by
      simp [np_argmax]
    rw [hargmax]
    rw [if_neg (by rw [List.getD_cons_zero, hlen]; positivity)]
    rfl
  refine ⟨?_, by rw [hd08]; nlinarith, aux_equator_run, by simp⟩
  unfold get_points
  rw [hsel]
  rfl

/-! ## C10: the resampler does not mutate its argument -/

/-- Claim C10, confirmed: tracking the caller's binding through the embedded
call frame, whenever the call returns, the caller's array is exactly the
input array (every `np.insert` builds a fresh array bound to the callee's
local only), and the refined contour exists only as the returned value —
which coincides with the pure run on the input. -/
theorem C10_no_mutation (points : List (ℝ × ℝ)) (resolution : ℝ) (fuel : ℕ)
    (out : List (ℝ × ℝ) × List (ℝ × ℝ))
    (h : increase_circuit_resolution_call points resolution fuel = some out) :
    out.1 = points ∧
    increase_circuit_resolution points resolution fuel = some out.2 := by
  suffices haux : ∀ (fuel : ℕ) (f : IcrFrame) (o : List (ℝ × ℝ) × List (ℝ × ℝ)),
      icrFrameRun resolution fuel f = some o →
      o.1 = f.caller ∧ icrRun resolution fuel ⟨f.points, f.n⟩ = some o.2 by
    exact haux fuel ⟨points, points, 0⟩ out h
  intro fuel
  induction fuel with
  | zero => intro f o hrun; cases hrun
  | succ fuel ih =>
      intro f o hrun
      rw [aux_icrFrameRun_succ] at hrun
      by_cases hn : f.n < f.points.length
      · rw [if_pos hn] at hrun
        have hstep := ih _ _ hrun
        refine ⟨hstep.1, ?_⟩
        rw [aux_icrRun_succ, if_pos hn]
        exact hstep.2
      · rw [if_neg hn] at hrun
        cases hrun
        exact ⟨rfl, by rw [aux_icrRun_succ, if_neg hn]⟩

/-- Witness for C10 at a one-point contour. -/
theorem C10_no_mutation_witness :
    (([((0:ℝ), 0)], [((0:ℝ), 0)]) : List (ℝ × ℝ) × List (ℝ × ℝ)).1 =
      [((0:ℝ), 0)] ∧
    increase_circuit_resolution [((0:ℝ), 0)] 1 2 =
      some (([((0:ℝ), 0)], [((0:ℝ), 0)]) : List (ℝ × ℝ) × List (ℝ × ℝ)).2 := by
  apply C10_no_mutation
  have hstep : icrStep 1 ⟨[((0:ℝ), 0)], 0⟩ = ⟨[((0:ℝ), 0)], 1⟩ :=
    aux_icrStep_skip 1 [((0:ℝ), 0)] 0 ((0:ℝ), 0) ((0:ℝ), 0) rfl rfl
      (by rw [haversine_self]; norm_num)
  unfold increase_circuit_resolution_call
  rw [aux_icrFrameRun_succ, if_pos (by simp)]
  rw [show icrFrameStep 1 ⟨[((0:ℝ), 0)], [((0:ℝ), 0)], 0⟩ =
      ⟨[((0:ℝ), 0)], [((0:ℝ), 0)], 1⟩ by unfold icrFrameStep; rw [hstep]]
  rw [aux_icrFrameRun_succ, if_neg (by simp)]

/-! ## General list lemmas for the resampler runs -/

theorem aux_sublist_insertIdx {α : Type} (l : List α) (n : ℕ) (a : α) :
    l.Sublist (l.insertIdx n a) := by
  induction l generalizing n with
  | nil =>
      cases n with
      | zero => simp
      | succ n => simp [List.insertIdx_succ_nil]
  | cons x xs ih =>
      cases n with
      | zero => exact List.sublist_cons_self a (x :: xs)
      | succ n =>
          rw [List.insertIdx_succ_cons]
          exact List.Sublist.cons₂ x (ih n)

theorem aux_getD_zero {α : Type} (l : List α) (d : α) : l.getD 0 d = l.headD d := by
  cases l <;> rfl

theorem aux_getLastD_irrel {α : Type} (l : List α) (h : l ≠ []) (d1 d2 : α) :
    l.getLastD d1 = l.getLastD d2 := by
  induction l generalizing d1 d2 with
  | nil => exact absurd rfl h
  | cons x xs ih =>
      cases xs with
      | nil => rfl
      | cons y t =>
          simp only [List.getLastD_cons]

theorem aux_getD_last {α : Type} (l : List α) (h : l ≠ []) (d : α) :
    l.getD (l.length - 1) d = l.getLastD d := by
  induction l with
  | nil => exact absurd rfl h
  | cons x xs ih =>
      cases xs with
      | nil => rfl
      | cons y t =>
          have h2 : (y :: t).length - 1 + 1 = (x :: y :: t).length - 1 := by
            simp
          rw [← h2, List.getD_cons_succ, ih (by simp)]
          simp only [List.getLastD_cons]

theorem aux_insertIdx_headD {α : Type} (l : List α) (n : ℕ) (a : α) (d : α)
    (h : 1 ≤ n) : (l.insertIdx n a).headD d = l.headD d := by
  cases l with
  | nil =>
      cases n with
      | zero => omega
      | succ n => rw [List.insertIdx_succ_nil]
  | cons x xs =>
      cases n with
      | zero => omega
      | succ n => rw [List.insertIdx_succ_cons]; rfl

theorem aux_insertIdx_getLastD {α : Type} (l : List α) (n : ℕ) (a : α) (d : α)
    (h : n < l.length) : (l.insertIdx n a).getLastD d = l.getLastD d := by
  induction l generalizing n d with
  | nil => simp at h
  | cons x xs ih =>
      cases n with
      | zero =>
          rw [List.insertIdx_zero]
          simp only [List.getLastD_cons]
      | succ n =>
          rw [List.insertIdx_succ_cons]
          simp only [List.getLastD_cons]
          have hn : n < xs.length := by simpa using h
          exact ih n _ hn

theorem aux_icrStep_n (r : ℝ) (s : IcrState) : (icrStep r s).n = s.n + 1 := by
  cases s with
  | mk pts n =>
      by_cases hcond : r < haversine (pts.getD n (0, 0))
          (pts.getD ((n + 1) % pts.length) (0, 0))
      · rw [aux_icrStep_insert r pts n _ _ _ rfl rfl hcond rfl]
      · rw [aux_icrStep_skip r pts n _ _ rfl rfl (not_lt.mp hcond)]

/-! ## Run invariants for the resampler -/

theorem aux_icrStep_cases (r : ℝ) (pts : List (ℝ × ℝ)) (n : ℕ) :
    (∃ np, icrStep r ⟨pts, n⟩ = ⟨pts.insertIdx ((n + 1) % pts.length) np, n + 1⟩ ∧
      r < haversine (pts.getD n (0, 0)) (pts.getD ((n + 1) % pts.length) (0, 0))) ∨
    (icrStep r ⟨pts, n⟩ = ⟨pts, n + 1⟩ ∧
      haversine (pts.getD n (0, 0)) (pts.getD ((n + 1) % pts.length) (0, 0)) ≤ r) := by
  by_cases hcond : r < haversine (pts.getD n (0, 0))
      (pts.getD ((n + 1) % pts.length) (0, 0))
  · exact Or.inl ⟨_, aux_icrStep_insert r pts n _ _ _ rfl rfl hcond rfl, hcond⟩
  · exact Or.inr ⟨aux_icrStep_skip r pts n _ _ rfl rfl (not_lt.mp hcond),
      not_lt.mp hcond⟩

theorem aux_icrRun_sublist (r : ℝ) :
    ∀ (fuel : ℕ) (s : IcrState) (out : List (ℝ × ℝ)),
      icrRun r fuel s = some out → s.points.Sublist out := by
  intro fuel
  induction fuel with
  | zero => intro s out h; cases h
  | succ fuel ih =>
      intro s out h
      rw [aux_icrRun_succ] at h
      by_cases hn : s.n < s.points.length
      · rw [if_pos hn] at h
        refine List.Sublist.trans ?_ (ih _ _ h)
        cases s with
        | mk pts n =>
            rcases aux_icrStep_cases r pts n with ⟨P, hstep, _⟩ | ⟨hstep, _⟩
            · rw [hstep]
              exact aux_sublist_insertIdx _ _ _
            · rw [hstep]
      · rw [if_neg hn] at h
        cases h
        exact List.Sublist.refl _

theorem aux_icrRun_exit (r : ℝ) :
    ∀ (fuel : ℕ) (s : IcrState) (out : List (ℝ × ℝ)), s.points ≠ [] →
      icrRun r fuel s = some out →
      haversine (out.getLastD (0, 0)) (out.headD (0, 0)) ≤ r ∨
        (s.points.length ≤ s.n ∧ out = s.points) := by
  intro fuel
  induction fuel with
  | zero => intro s out _ h; cases h
  | succ fuel ih =>
      intro s out hne h
      rw [aux_icrRun_succ] at h
      by_cases hn : s.n < s.points.length
      · rw [if_pos hn] at h
        cases s with
        | mk pts n =>
        simp only at hn hne
        have hlenpos : 0 < pts.length := List.length_pos.mpr hne
        rcases aux_icrStep_cases r pts n with ⟨P, hstep, hcond⟩ | ⟨hstep, hcond⟩
        · rw [hstep] at h
          have hmod : (n + 1) % pts.length ≤ pts.length :=
            le_of_lt (Nat.mod_lt _ hlenpos)
          have hlen2 : (pts.insertIdx ((n + 1) % pts.length) P).length =
              pts.length + 1 := List.length_insertIdx _ _ hmod
          have hne2 : (pts.insertIdx ((n + 1) % pts.length) P) ≠ [] := by
            intro heq
            rw [heq] at hlen2
            simp at hlen2
          rcases ih _ _ hne2 h with hleft | ⟨hge, _⟩
          · exact Or.inl hleft
          · simp only [hlen2] at hge
            omega
        · rw [hstep] at h
          rcases ih _ _ hne h with hleft | ⟨hge, heq⟩
          · exact Or.inl hleft
          · simp only at hge heq
            have hn1 : n = pts.length - 1 := by omega
            have hmod0 : (n + 1) % pts.length = 0 := by
              rw [hn1, Nat.sub_add_cancel hlenpos, Nat.mod_self]
            rw [hmod0, aux_getD_zero] at hcond
            rw [hn1, aux_getD_last pts hne] at hcond
            left
            rw [heq]
            exact hcond
      · rw [if_neg hn] at h
        cases h
        exact Or.inr ⟨le_of_not_lt hn, rfl⟩

theorem aux_icrRun_headLast (r : ℝ) :
    ∀ (fuel : ℕ) (s : IcrState) (out : List (ℝ × ℝ)), s.points ≠ [] →
      haversine (s.points.getLastD (0, 0)) (s.points.headD (0, 0)) ≤ r →
      icrRun r fuel s = some out →
      out.headD (0, 0) = s.points.headD (0, 0) ∧
        out.getLastD (0, 0) = s.points.getLastD (0, 0) := by
  intro fuel
  induction fuel with
  | zero => intro s out _ _ h; cases h
  | succ fuel ih =>
      intro s out hne hwrap h
      rw [aux_icrRun_succ] at h
      by_cases hn : s.n < s.points.length
      · rw [if_pos hn] at h
        cases s with
        | mk pts n =>
        simp only at hn hne hwrap ⊢
        have hlenpos : 0 < pts.length := List.length_pos.mpr hne
        rcases aux_icrStep_cases r pts n with ⟨P, hstep, hcond⟩ | ⟨hstep, hcond⟩
        · rw [hstep] at h
          have hnp1lt : (n + 1) % pts.length < pts.length := Nat.mod_lt _ hlenpos
          have hnp1pos : 1 ≤ (n + 1) % pts.length := by
            rcases Nat.eq_zero_or_pos ((n + 1) % pts.length) with h0 | h1
            · exfalso
              have hn1 : n = pts.length - 1 := by
                rcases Nat.lt_or_ge (n + 1) pts.length with hlt | hge
                · rw [Nat.mod_eq_of_lt hlt] at h0; omega
                · omega
              rw [h0, aux_getD_zero] at hcond
              rw [hn1, aux_getD_last pts hne] at hcond
              exact absurd hwrap (not_le.mpr hcond)
            · exact h1
          have hh := aux_insertIdx_headD pts ((n + 1) % pts.length) P
            ((0:ℝ), (0:ℝ)) hnp1pos
          have hl := aux_insertIdx_getLastD pts ((n + 1) % pts.length) P
            ((0:ℝ), (0:ℝ)) hnp1lt
          have hlen2 : (pts.insertIdx ((n + 1) % pts.length) P).length =
              pts.length + 1 := List.length_insertIdx _ _ (le_of_lt hnp1lt)
          have hne2 : (pts.insertIdx ((n + 1) % pts.length) P) ≠ [] := by
            intro heq
            rw [heq] at hlen2
            simp at hlen2
          have hrec := ih ⟨pts.insertIdx ((n + 1) % pts.length) P, n + 1⟩ out
            hne2 (by simp only; rw [hh, hl]; exact hwrap) h
          simp only at hrec
          rw [hh, hl] at hrec
          exact hrec
        · rw [hstep] at h
          exact ih ⟨pts, n + 1⟩ out hne hwrap h
      · rw [if_neg hn] at h
        cases h
        exact ⟨rfl, rfl⟩

theorem aux_icrRun_id (r : ℝ) :
    ∀ (fuel : ℕ) (s : IcrState) (out : List (ℝ × ℝ)),
      (∀ i, i < s.points.length →
        haversine (s.points.getD i (0, 0))
          (s.points.getD ((i + 1) % s.points.length) (0, 0)) ≤ r) →
      icrRun r fuel s = some out → out = s.points := by
  intro fuel
  induction fuel with
  | zero => intro s out _ h; cases h
  | succ fuel ih =>
      intro s out hall h
      rw [aux_icrRun_succ] at h
      by_cases hn : s.n < s.points.length
      · rw [if_pos hn] at h
        cases s with
        | mk pts n =>
        simp only at hn hall
        have hstep := aux_icrStep_skip r pts n _ _ rfl rfl (hall n hn)
        rw [hstep] at h
        exact ih ⟨pts, n + 1⟩ out hall h
      · rw [if_neg hn] at h
        cases h
        rfl

theorem aux_icrRun_all_pairs (r : ℝ) :
    ∀ (fuel : ℕ) (s : IcrState) (out : List (ℝ × ℝ)),
      icrRun r fuel s = some out → out = s.points →
      ∀ i, s.n ≤ i → i < s.points.length →
        haversine (s.points.getD i (0, 0))
          (s.points.getD ((i + 1) % s.points.length) (0, 0)) ≤ r := by
  intro fuel
  induction fuel with
  | zero => intro s out h; cases h
  | succ fuel ih =>
      intro s out h heq i hge hlt
      rw [aux_icrRun_succ] at h
      by_cases hn : s.n < s.points.length
      · rw [if_pos hn] at h
        cases s with
        | mk pts n =>
        simp only at hn hge hlt heq ⊢
        have hlenpos : 0 < pts.length := by omega
        rcases aux_icrStep_cases r pts n with ⟨P, hstep, hcond⟩ | ⟨hstep, hcond⟩
        · exfalso
          rw [hstep] at h
          have hsub := aux_icrRun_sublist r _ _ _ h
          have hlen1 := hsub.length_le
          rw [heq] at hlen1
          simp only [List.length_insertIdx _ _
            (le_of_lt (Nat.mod_lt _ hlenpos))] at hlen1
          omega
        · rw [hstep] at h
          rcases Nat.eq_or_lt_of_le hge with hi | hi
          · rw [← hi]
            exact hcond
          · exact ih ⟨pts, n + 1⟩ out h heq i (by simpa using hi) hlt
      · omega

/-- Claim C5 as amended: whenever the resampler run terminates on a closed
polygon with positive target spacing, the output has at least as many
points as the input, the input points appear in order as a sublist, and the
closure property is preserved; but the spacing bound holds for every
consecutive pair (wrapping included) only in the degenerate case where no
insertion was needed at all — the output equals the input exactly when
every consecutive input pair was already within the spacing.  Inserted
points are placed at the resolution-scaled fraction of the coordinate
chord and the gaps they leave (notably the gap behind a wrap-edge
insertion, which the scan never revisits) can exceed the spacing, as the
counterexample shows. -/
theorem C5_amended (points : List (ℝ × ℝ)) (resolution : ℝ) (fuel : ℕ)
    (out : List (ℝ × ℝ))
    (hres : 0 < resolution)
    (hrun : increase_circuit_resolution points resolution fuel = some out) :
    points.length ≤ out.length ∧
    points.Sublist out ∧
    (is_closed_contour points 100 → is_closed_contour out 100) ∧
    (out = points ↔ ∀ i, i < points.length →
      haversine (points.getD i (0, 0))
        (points.getD ((i + 1) % points.length) (0, 0)) ≤ resolution) := by
  unfold increase_circuit_resolution at hrun
  have hsub := aux_icrRun_sublist resolution fuel ⟨points, 0⟩ out hrun
  refine ⟨hsub.length_le, hsub, ?_, ?_, ?_⟩
  · intro hcl
    rcases eq_or_ne points [] with rfl | hne
    · have hout : out = [] := by
        cases fuel with
        | zero => cases hrun
        | succ fuel =>
            rw [aux_icrRun_succ] at hrun
            rw [if_neg (by simp)] at hrun
            cases hrun
            rfl
      rw [hout]
      simp [is_closed_contour, haversine_self]
    · rcases lt_or_le resolution 100 with hr | hr
      · rcases aux_icrRun_exit resolution fuel ⟨points, 0⟩ out hne hrun with hleft | ⟨hge, _⟩
        · unfold is_closed_contour
          rw [haversine_comm]
          linarith
        · simp only at hge
          have := List.length_pos.mpr hne
          omega
      · have hwrap : haversine (points.getLastD (0, 0)) (points.headD (0, 0)) ≤
            resolution := by
          rw [haversine_comm]
          unfold is_closed_contour at hcl
          linarith
        have hhl := aux_icrRun_headLast resolution fuel ⟨points, 0⟩ out hne hwrap hrun
        unfold is_closed_contour at hcl ⊢
        rw [hhl.1, hhl.2]
        exact hcl
  · intro heq i hlt
    exact aux_icrRun_all_pairs resolution fuel ⟨points, 0⟩ out hrun heq i (Nat.zero_le i) hlt
  · intro hall
    exact aux_icrRun_id resolution fuel ⟨points, 0⟩ out hall hrun

/-- Witness for C5 on the equatorial counterexample input: the theorem
applies and yields order preservation and closure of the output. -/
theorem C5_amended_witness :
    ([((0:ℝ), 0), (4 / 5, 0)] : List (ℝ × ℝ)).Sublist
      [((1 / 2 : ℝ), 0), (0, 0), (3 / 10, 0), (3 / 5, 0), (4 / 5, 0)] ∧
    is_closed_contour
      [((1 / 2 : ℝ), 0), (0, 0), (3 / 10, 0), (3 / 5, 0), (4 / 5, 0)] 100 := by
  have hpi := Real.pi_pos
  have h := C5_amended [((0:ℝ), 0), (4 / 5, 0)] (6371 * (Real.pi / 180) * (3 / 10))
    6 [((1 / 2 : ℝ), 0), (0, 0), (3 / 10, 0), (3 / 5, 0), (4 / 5, 0)]
    (by positivity) aux_equator_run
  refine ⟨h.2.1, h.2.2.1 ?_⟩
  show haversine ((0:ℝ), 0) ((4 / 5 : ℝ), 0) < 100
  rw [haversine_equator_of_le 0 (4 / 5) (by norm_num) (by norm_num)]
  nlinarith [Real.pi_lt_d2]

/-! ## C6: analysis of the diagonal chord distance

`fdiag s = haversine (0,0) (90 s, 90 s)` is strictly concave in the chord
parameter (through `gdiag`), so `fdiag s / s` is strictly decreasing; this
drives the non-termination of the wrap-edge subloop. -/

theorem aux_one_lt_sqrt_two : (1:ℝ) < Real.sqrt 2 := by
  rw [show (1:ℝ) = Real.sqrt 1 from (Real.sqrt_one).symm]
  exact Real.sqrt_lt_sqrt (by norm_num) (by norm_num)

theorem aux_gdiag_hasDeriv (u : ℝ) :
    HasDerivAt gdiag (Real.cos u / Real.sqrt (1 + Real.cos u ^ 2)) u := by
  have hs2 : (0:ℝ) < Real.sqrt 2 := by positivity
  have habs : |Real.sin u / Real.sqrt 2| < 1 := by
    rw [abs_div, abs_of_nonneg (le_of_lt hs2)]
    rw [div_lt_one hs2]
    calc |Real.sin u| ≤ 1 := Real.abs_sin_le_one u
    _ < Real.sqrt 2 := aux_one_lt_sqrt_two
  have h1 : Real.sin u / Real.sqrt 2 ≠ -1 := by
    intro h
    rw [h] at habs
    norm_num at habs
  have h2 : Real.sin u / Real.sqrt 2 ≠ 1 := by
    intro h
    rw [h] at habs
    norm_num at habs
  have hinner : HasDerivAt (fun v => Real.sin v / Real.sqrt 2)
      (Real.cos u / Real.sqrt 2) u := (Real.hasDerivAt_sin u).div_const _
  have houter := Real.hasDerivAt_arcsin h1 h2
  have hcomp := houter.comp u hinner
  have heq : 1 / Real.sqrt (1 - (Real.sin u / Real.sqrt 2) ^ 2) *
      (Real.cos u / Real.sqrt 2) =
      Real.cos u / Real.sqrt (1 + Real.cos u ^ 2) := by
    have e1 : 1 - (Real.sin u / Real.sqrt 2) ^ 2 = (1 + Real.cos u ^ 2) / 2 := by
      rw [div_pow, Real.sq_sqrt (by norm_num : (0:ℝ) ≤ 2), Real.sin_sq]
      ring
    rw [e1, Real.sqrt_div (by positivity) 2]
    have hsc : Real.sqrt (1 + Real.cos u ^ 2) ≠ 0 := by positivity
    field_simp
    ring
  rw [heq] at hcomp
  exact hcomp

theorem aux_ratio_mono (a b : ℝ) (ha : 0 ≤ a) (hab : a < b) :
    a / Real.sqrt (1 + a ^ 2) < b / Real.sqrt (1 + b ^ 2) := by
  have hsa : 0 < Real.sqrt (1 + a ^ 2) := Real.sqrt_pos.mpr (by positivity)
  have hsb : 0 < Real.sqrt (1 + b ^ 2) := Real.sqrt_pos.mpr (by positivity)
  have hb0 : 0 < b := lt_of_le_of_lt ha hab
  rw [div_lt_div_iff hsa hsb]
  apply lt_of_pow_lt_pow_left₀ 2 (by positivity)
  rw [mul_pow, mul_pow, Real.sq_sqrt (by positivity), Real.sq_sqrt (by positivity)]
  nlinarith

theorem aux_gdiag_concave :
    StrictConcaveOn ℝ (Set.Icc 0 (Real.pi / 2)) gdiag := by
  have hpi := Real.pi_pos
  have hcont : ContinuousOn gdiag (Set.Icc 0 (Real.pi / 2)) :=
    (Real.continuous_arcsin.comp (Real.continuous_sin.div_const _)).continuousOn
  have hanti : StrictAntiOn (deriv gdiag) (interior (Set.Icc 0 (Real.pi / 2))) := by
    rw [interior_Icc]
    intro u1 hu1 u2 hu2 h12
    rw [(aux_gdiag_hasDeriv u1).deriv, (aux_gdiag_hasDeriv u2).deriv]
    have hc2pos : 0 < Real.cos u2 :=
      Real.cos_pos_of_mem_Ioo ⟨by linarith [hu2.1], hu2.2⟩
    have hcos_lt : Real.cos u2 < Real.cos u1 :=
      Real.strictAntiOn_cos ⟨le_of_lt hu1.1, by linarith [hu1.2]⟩
        ⟨le_of_lt hu2.1, by linarith [hu2.2]⟩ h12
    exact aux_ratio_mono _ _ (le_of_lt hc2pos) hcos_lt
  exact hanti.strictConcaveOn_of_deriv (convex_Icc 0 (Real.pi / 2)) hcont

theorem aux_gdiag_zero : gdiag 0 = 0 := by
  simp [gdiag]

theorem aux_gdiag_slope (u1 u2 : ℝ) (h1 : 0 < u1) (h12 : u1 < u2)
    (h2 : u2 ≤ Real.pi / 2) : gdiag u2 * u1 < gdiag u1 * u2 := by
  have hpi := Real.pi_pos
  have hu2pos : 0 < u2 := lt_trans h1 h12
  have hmem2 : u2 ∈ Set.Icc (0:ℝ) (Real.pi / 2) := ⟨le_of_lt hu2pos, h2⟩
  have hmem0 : (0:ℝ) ∈ Set.Icc (0:ℝ) (Real.pi / 2) := ⟨le_refl 0, by positivity⟩
  have hne : u2 ≠ 0 := ne_of_gt hu2pos
  have ha : 0 < u1 / u2 := div_pos h1 hu2pos
  have hb : 0 < 1 - u1 / u2 := by
    have := (div_lt_one hu2pos).mpr h12
    linarith
  have hsum : u1 / u2 + (1 - u1 / u2) = 1 := by ring
  have hkey := aux_gdiag_concave.2 hmem2 hmem0 hne ha hb hsum
  rw [smul_eq_mul, smul_eq_mul, smul_eq_mul, smul_eq_mul, aux_gdiag_zero] at hkey
  rw [show u1 / u2 * u2 + (1 - u1 / u2) * 0 = u1 by field_simp] at hkey
  rw [mul_zero, add_zero] at hkey
  have hkey2 : u1 / u2 * gdiag u2 * u2 < gdiag u1 * u2 :=
    mul_lt_mul_of_pos_right hkey hu2pos
  calc gdiag u2 * u1 = u1 / u2 * gdiag u2 * u2 := by field_simp; ring
  _ < gdiag u1 * u2 := hkey2

theorem aux_fdiag_slope (s1 s2 : ℝ) (h1 : 0 < s1) (h12 : s1 < s2) (h2 : s2 ≤ 1) :
    fdiag s2 * s1 < fdiag s1 * s2 := by
  have hpi := Real.pi_pos
  have hslope := aux_gdiag_slope (s1 * (Real.pi / 2)) (s2 * (Real.pi / 2))
    (by positivity) (by nlinarith) (by nlinarith)
  have hs : gdiag (s2 * (Real.pi / 2)) * s1 < gdiag (s1 * (Real.pi / 2)) * s2 := by
    rw [show gdiag (s2 * (Real.pi / 2)) * (s1 * (Real.pi / 2)) =
        gdiag (s2 * (Real.pi / 2)) * s1 * (Real.pi / 2) by ring,
      show gdiag (s1 * (Real.pi / 2)) * (s2 * (Real.pi / 2)) =
        gdiag (s1 * (Real.pi / 2)) * s2 * (Real.pi / 2) by ring] at hslope
    exact lt_of_mul_lt_mul_right hslope (by positivity)
  unfold fdiag
  nlinarith [hs]

/-- The haversine distance from the origin to the diagonal point
`(90 s, 90 s)` equals `fdiag s` for chord parameters in `[0, 1]`. -/
theorem haversine_diag (s : ℝ) (h0 : 0 ≤ s) (h1 : s ≤ 1) :
    haversine ((0:ℝ), 0) (90 * s, 90 * s) = fdiag s := by
  have hpi := Real.pi_pos
  have hsin : 0 ≤ Real.sin (s * (Real.pi / 2)) := by
    apply Real.sin_nonneg_of_nonneg_of_le_pi (by positivity)
    nlinarith
  simp only [haversine, deg2rad, fdiag, gdiag]
  rw [show (0:ℝ) * (Real.pi / 180) = 0 by ring]
  rw [show 90 * s * (Real.pi / 180) = s * (Real.pi / 2) by ring]
  simp only [sub_zero, Real.cos_zero, one_mul]
  have hkey : Real.sin (s * (Real.pi / 2) / 2) ^ 2 +
      Real.cos (s * (Real.pi / 2)) * Real.sin (s * (Real.pi / 2) / 2) ^ 2 =
      Real.sin (s * (Real.pi / 2)) ^ 2 / 2 := by
    rw [show s * (Real.pi / 2) = 2 * (s * (Real.pi / 4)) by ring]
    rw [Real.cos_two_mul, Real.sin_two_mul]
    rw [show 2 * (s * (Real.pi / 4)) / 2 = s * (Real.pi / 4) by ring]
    ring
  rw [hkey]
  rw [Real.sqrt_div (sq_nonneg _) 2, Real.sqrt_sq_eq_abs, abs_of_nonneg hsin]

theorem aux_fdiag_one : fdiag 1 = 6371 * Real.pi / 2 := by
  have hpi := Real.pi_pos
  unfold fdiag gdiag
  rw [show (1:ℝ) * (Real.pi / 2) = Real.pi / 2 by ring, Real.sin_pi_div_two]
  rw [show (1:ℝ) / Real.sqrt 2 = Real.sqrt 2 / 2 by
    rw [div_eq_div_iff (by positivity) (by norm_num), one_mul]
    exact (Real.mul_self_sqrt (by norm_num)).symm]
  rw [← Real.sin_pi_div_four]
  rw [Real.arcsin_sin (by linarith) (by linarith)]
  ring

theorem aux_fdiag_half : fdiag (1 / 2) = 6371 * Real.pi / 3 := by
  have hpi := Real.pi_pos
  unfold fdiag gdiag
  rw [show (1 / 2 : ℝ) * (Real.pi / 2) = Real.pi / 4 by ring, Real.sin_pi_div_four]
  rw [show Real.sqrt 2 / 2 / Real.sqrt 2 = 1 / 2 by
    have h2 : Real.sqrt 2 ≠ 0 := by positivity
    field_simp
    ring]
  rw [← Real.sin_pi_div_six]
  rw [Real.arcsin_sin (by linarith) (by linarith)]
  ring

theorem aux_fdiag_eighth : fdiag (1 / 8) < 6371 * Real.pi / 4 := by
  have hpi := Real.pi_pos
  unfold fdiag gdiag
  rw [show (1 / 8 : ℝ) * (Real.pi / 2) = Real.pi / 16 by ring]
  have hs16 : 0 < Real.sin (Real.pi / 16) :=
    Real.sin_pos_of_pos_of_lt_pi (by positivity) (by linarith)
  have hs2 : (0:ℝ) < Real.sqrt 2 := by positivity
  have hmono : Real.sin (Real.pi / 16) < Real.sin (Real.pi / 8) :=
    Real.strictMonoOn_sin ⟨by linarith, by linarith⟩ ⟨by linarith, by linarith⟩
      (by linarith)
  have hlt : Real.sin (Real.pi / 16) / Real.sqrt 2 < Real.sin (Real.pi / 8) := by
    calc Real.sin (Real.pi / 16) / Real.sqrt 2 < Real.sin (Real.pi / 16) := by
          rw [div_lt_iff hs2]
          nlinarith [aux_one_lt_sqrt_two]
    _ < Real.sin (Real.pi / 8) := hmono
  have harc : Real.arcsin (Real.sin (Real.pi / 16) / Real.sqrt 2) < Real.pi / 8 := by
    have hmem1 : Real.sin (Real.pi / 16) / Real.sqrt 2 ∈ Set.Icc (-1 : ℝ) 1 := by
      constructor
      · have hnn : 0 ≤ Real.sin (Real.pi / 16) / Real.sqrt 2 := by positivity
        linarith
      · calc Real.sin (Real.pi / 16) / Real.sqrt 2 ≤ Real.sin (Real.pi / 16) := by
              rw [div_le_iff hs2]
              nlinarith [aux_one_lt_sqrt_two, hs16]
        _ ≤ 1 := Real.sin_le_one _
    have hmem2 : Real.sin (Real.pi / 8) ∈ Set.Icc (-1 : ℝ) 1 :=
      ⟨Real.neg_one_le_sin _, Real.sin_le_one _⟩
    have := Real.strictMonoOn_arcsin hmem1 hmem2 hlt
    rwa [Real.arcsin_sin (by linarith) (by linarith)] at this
  nlinarith [harc]

/-! ## C6: the wrap-edge subloop never terminates on the diagonal chord -/

theorem aux_stuck_step (s : IcrState)
    (h : IcrDiagStuck (6371 * Real.pi / 4) s) :
    IcrDiagStuck (6371 * Real.pi / 4) (icrStep (6371 * Real.pi / 4) s) ∧
      s.n < s.points.length := by
  have hpi := Real.pi_pos
  obtain ⟨sc, hsc0, hsc1, hhead, hlast, hlen2, hn, hres⟩ := h
  cases s with
  | mk pts n =>
  simp only at hhead hlast hlen2 hn hres ⊢
  have hne : pts ≠ [] := by
    intro he
    rw [he] at hlen2
    simp at hlen2
  have hlenpos : 0 < pts.length := by omega
  have hnlt : n < pts.length := by omega
  refine ⟨?_, hnlt⟩
  have hmod : (n + 1) % pts.length = 0 := by
    rw [hn, Nat.sub_add_cancel hlenpos, Nat.mod_self]
  have hp : pts.getD n (0, 0) = ((0:ℝ), 0) := by
    rw [hn, aux_getD_last pts hne, hlast]
  have hq : pts.getD ((n + 1) % pts.length) (0, 0) = (90 * sc, 90 * sc) := by
    rw [hmod, aux_getD_zero, hhead]
  have hdiag := haversine_diag sc (le_of_lt hsc0) hsc1
  have hrpos : (0:ℝ) < 6371 * Real.pi / 4 := by positivity
  have hfpos : 0 < fdiag sc := lt_trans hrpos hres
  have hstep : icrStep (6371 * Real.pi / 4) ⟨pts, n⟩ =
      ⟨pts.insertIdx 0 (90 * (sc * (6371 * Real.pi / 4) / fdiag sc),
        90 * (sc * (6371 * Real.pi / 4) / fdiag sc)), n + 1⟩ := by
    have h1 := aux_icrStep_insert (6371 * Real.pi / 4) pts n ((0:ℝ), 0)
      (90 * sc, 90 * sc)
      (90 * (sc * (6371 * Real.pi / 4) / fdiag sc),
        90 * (sc * (6371 * Real.pi / 4) / fdiag sc)) hp hq
      (by rw [hdiag]; exact hres)
      (by
        rw [hdiag]
        simp only [Prod.mk.injEq]
        constructor
        · field_simp
          ring
        · field_simp
          ring)
    rw [hmod] at h1
    exact h1
  rw [hstep]
  have hsc'0 : 0 < sc * (6371 * Real.pi / 4) / fdiag sc := by positivity
  have hsc'lt : sc * (6371 * Real.pi / 4) / fdiag sc < sc := by
    rw [div_lt_iff₀ hfpos]
    nlinarith
  have hres' : 6371 * Real.pi / 4 <
      fdiag (sc * (6371 * Real.pi / 4) / fdiag sc) := by
    have hsl := aux_fdiag_slope (sc * (6371 * Real.pi / 4) / fdiag sc) sc
      hsc'0 hsc'lt hsc1
    have he : fdiag sc * (sc * (6371 * Real.pi / 4) / fdiag sc) =
        sc * (6371 * Real.pi / 4) := by
      field_simp
      ring
    rw [he] at hsl
    have := lt_of_mul_lt_mul_right
      (show 6371 * Real.pi / 4 * sc <
        fdiag (sc * (6371 * Real.pi / 4) / fdiag sc) * sc by nlinarith)
      (le_of_lt hsc0)
    exact this
  refine ⟨sc * (6371 * Real.pi / 4) / fdiag sc, hsc'0,
    le_of_lt (lt_of_lt_of_le hsc'lt hsc1), ?_, ?_, ?_, ?_, hres'⟩
  · rw [List.insertIdx_zero]
    rfl
  · rw [List.insertIdx_zero, List.getLastD_cons]
    rw [aux_getLastD_irrel pts hne _ ((0:ℝ), (0:ℝ))]
    exact hlast
  · rw [List.insertIdx_zero]
    simp only [List.length_cons]
    omega
  · rw [List.insertIdx_zero]
    simp only [List.length_cons]
    omega

theorem aux_stuck_run :
    ∀ (fuel : ℕ) (s : IcrState), IcrDiagStuck (6371 * Real.pi / 4) s →
      icrRun (6371 * Real.pi / 4) fuel s = none := by
  intro fuel
  induction fuel with
  | zero => intro s _; rfl
  | succ fuel ih =>
      intro s hs
      obtain ⟨hstuck2, hguard⟩ := aux_stuck_step s hs
      rw [aux_icrRun_succ, if_pos hguard]
      exact ih _ hstuck2

/-- Claim C6, refuted on the code (code bug): on the contour
`[(90,90), (0,0)]` with resolution `6371·π/4` km the resampler loop runs
forever.  After three scan steps and the first wrap-edge insertion the scan
sits on the final point `(0,0)` with the head a point `(90 s, 90 s)` of the
diagonal chord; by strict concavity of the chord distance `fdiag`, the
freshly inserted head always remains strictly farther than the resolution
(the checked segment length strictly shrinks, but converges to the
resolution from above), so a new point is inserted at index 0 at every
subsequent iteration and the loop condition never fails: the run returns
`none` for every fuel. -/
theorem C6_nontermination (fuel : ℕ) :
    icrRun (6371 * Real.pi / 4) fuel ⟨[((90:ℝ), 90), ((0:ℝ), 0)], 0⟩ = none := by
  have hpi := Real.pi_pos
  have hd90 : haversine ((90:ℝ), 90) ((0:ℝ), 0) = 6371 * Real.pi / 2 := by
    rw [haversine_comm]
    rw [show (((90:ℝ), (90:ℝ))) = ((90 * (1:ℝ), 90 * (1:ℝ))) by norm_num]
    rw [haversine_diag 1 (by norm_num) (le_refl 1), aux_fdiag_one]
  have hd45 : haversine ((45:ℝ), 45) ((0:ℝ), 0) = 6371 * Real.pi / 3 := by
    rw [haversine_comm]
    rw [show (((45:ℝ), (45:ℝ))) = ((90 * (1 / 2 : ℝ), 90 * (1 / 2 : ℝ))) by norm_num]
    rw [haversine_diag (1 / 2) (by norm_num) (by norm_num), aux_fdiag_half]
  have hd118 : haversine ((45 / 4 : ℝ), 45 / 4) ((0:ℝ), 0) = fdiag (1 / 8) := by
    rw [haversine_comm]
    rw [show (((45 / 4 : ℝ), (45 / 4 : ℝ))) =
      ((90 * (1 / 8 : ℝ), 90 * (1 / 8 : ℝ))) by norm_num]
    exact haversine_diag (1 / 8) (by norm_num) (by norm_num)
  have hd09 : haversine ((0:ℝ), 0) ((90:ℝ), 90) = 6371 * Real.pi / 2 := by
    rw [haversine_comm]
    exact hd90
  have hst0 : icrStep (6371 * Real.pi / 4) ⟨[((90:ℝ), 90), ((0:ℝ), 0)], 0⟩ =
      ⟨[((90:ℝ), 90), (45, 45), ((0:ℝ), 0)], 1⟩ := by
    rw [aux_icrStep_insert _ [((90:ℝ), 90), ((0:ℝ), 0)] 0 ((90:ℝ), 90) ((0:ℝ), 0)
      ((45:ℝ), 45) rfl rfl (by rw [hd90]; nlinarith)
      (by
        rw [hd90]
        simp only [Prod.mk.injEq]
        constructor <;> (field_simp; ring))]
    rfl
  have hst1 : icrStep (6371 * Real.pi / 4)
      ⟨[((90:ℝ), 90), (45, 45), ((0:ℝ), 0)], 1⟩ =
      ⟨[((90:ℝ), 90), (45, 45), (45 / 4, 45 / 4), ((0:ℝ), 0)], 2⟩ := by
    rw [aux_icrStep_insert _ [((90:ℝ), 90), (45, 45), ((0:ℝ), 0)] 1 ((45:ℝ), 45)
      ((0:ℝ), 0) ((45 / 4 : ℝ), 45 / 4) rfl rfl (by rw [hd45]; nlinarith)
      (by
        rw [hd45]
        simp only [Prod.mk.injEq]
        constructor <;> (field_simp; ring))]
    rfl
  have hst2 : icrStep (6371 * Real.pi / 4)
      ⟨[((90:ℝ), 90), (45, 45), (45 / 4, 45 / 4), ((0:ℝ), 0)], 2⟩ =
      ⟨[((90:ℝ), 90), (45, 45), (45 / 4, 45 / 4), ((0:ℝ), 0)], 3⟩ :=
    aux_icrStep_skip _ [((90:ℝ), 90), (45, 45), (45 / 4, 45 / 4), ((0:ℝ), 0)] 2
      ((45 / 4 : ℝ), 45 / 4) ((0:ℝ), 0) rfl rfl
      (by rw [hd118]; exact le_of_lt aux_fdiag_eighth)
  have hst3 : icrStep (6371 * Real.pi / 4)
      ⟨[((90:ℝ), 90), (45, 45), (45 / 4, 45 / 4), ((0:ℝ), 0)], 3⟩ =
      ⟨[((45:ℝ), 45), ((90:ℝ), 90), (45, 45), (45 / 4, 45 / 4), ((0:ℝ), 0)], 4⟩ := by
    rw [aux_icrStep_insert _ [((90:ℝ), 90), (45, 45), (45 / 4, 45 / 4), ((0:ℝ), 0)]
      3 ((0:ℝ), 0) ((90:ℝ), 90) ((45:ℝ), 45) (by rfl) (by rfl)
      (by rw [hd09]; nlinarith)
      (by
        rw [hd09]
        simp only [Prod.mk.injEq]
        constructor <;> (field_simp; ring))]
    rfl
  have hstuck : IcrDiagStuck (6371 * Real.pi / 4)
      ⟨[((45:ℝ), 45), ((90:ℝ), 90), (45, 45), (45 / 4, 45 / 4), ((0:ℝ), 0)], 4⟩ := by
    refine ⟨1 / 2, by norm_num, by norm_num, by norm_num, rfl, by norm_num, rfl, ?_⟩
    rw [aux_fdiag_half]
    nlinarith
  rcases fuel with _ | _ | _ | _ | n
  · rfl
  · rw [aux_icrRun_succ, if_pos (by simp), hst0]
    rfl
  · rw [aux_icrRun_succ, if_pos (by simp), hst0,
      aux_icrRun_succ, if_pos (by simp), hst1]
    rfl
  · rw [aux_icrRun_succ, if_pos (by simp), hst0,
      aux_icrRun_succ, if_pos (by simp), hst1,
      aux_icrRun_succ, if_pos (by simp), hst2]
    rfl
  · rw [aux_icrRun_succ, if_pos (by simp), hst0,
      aux_icrRun_succ, if_pos (by simp), hst1,
      aux_icrRun_succ, if_pos (by simp), hst2,
      aux_icrRun_succ, if_pos (by simp), hst3]
    exact aux_stuck_run n _ hstuck

end WCB
